import Mathlib

/-!
# OtoUtil: the oto entry record and the pitch-suffix helpers

A verification development over `src/OtoUtil/otoentry.cpp`.

`QString` is modelled as `List Char`.  The Qt library routines the source
calls on numbers (`QString::toDouble`, `QStringRef::toInt`, the `'f'`
rendering of a double, `operator==` on `double`) are not part of the
repository; they are taken as parameters (`QtDouble`, `QtInt`), so every
general theorem holds for whatever these routines do.  A small reference
implementation over exact decimal numbers (`refDouble`, `refInt`) is supplied
to evaluate the definitions on concrete lines.  The text routines of
`QString` (`indexOf`, `lastIndexOf`, `left`, `mid`, `remove`, `section`,
`arg`) are modelled after their documented behaviour; the case folding of
`QChar` and `QChar::isDigit` are parameters of the functions that use them.
-/

namespace OtoUtil

/-- A `QString`, as the list of its characters. -/
abbrev QString := List Char

/-! ## The QString operations used by the source -/

namespace QStr

/-- Scan of `indexOf`: the position of the first `c` at or after position `i`
(the list holds the characters from `i` on), `-1` when there is none. -/
def indexOfFrom (c : Char) : QString → Int → Int
  | [], _ => -1
  | x :: xs, i => if x = c then i else indexOfFrom c xs (i + 1)

/-- Model of `QString::indexOf` for a one-character needle, searching from position 0:
the index of the first occurrence, `-1` when absent. -/
def indexOf (s : QString) (c : Char) : Int := indexOfFrom c s 0

/-- Model of `QString::left(n)`: the `n` leftmost characters; the whole string when
`n` is negative or not smaller than the size. -/
def left (s : QString) (n : Int) : QString :=
  if n < 0 ∨ (s.length : Int) ≤ n then s else s.take n.toNat

/-- Model of `QString::mid(pos)`: the characters from `pos` to the end; the null
string when `pos` is past the end. -/
def mid (s : QString) (pos : Int) : QString :=
  if (s.length : Int) < pos then [] else s.drop pos.toNat

/-- Model of `QString::split(sep, KeepEmptyParts)` for a one-character separator. -/
def split (sep : Char) : QString → List QString
  | [] => [[]]
  | c :: cs =>
    if c = sep then [] :: split sep cs
    else
      match split sep cs with
      | [] => [[c]]
      | f :: fs => (c :: f) :: fs

/-- Model of `QString::section(sep, i, i)` with the default flags: field `i` of the
split, the null string when there are fewer fields. -/
def sectionAt (s : QString) (sep : Char) (i : Nat) : QString :=
  (split sep s).getD i []

/-- Model of `QChar::digitValue`, on the ASCII digits `0`..`9` (the decimal digits of
other scripts are outside this model). -/
def digitValue (c : Char) : Option Nat :=
  if c.isDigit then some (c.toNat - 48) else none

/-- The one- or two-digit number of a place marker, read at the head of the
text: the number and how many characters it takes. -/
def escapeDigits : QString → Option (Nat × Nat)
  | [] => none
  | [d] => (digitValue d).map fun a => (a, 1)
  | d1 :: d2 :: _ =>
    match digitValue d1 with
    | none => none
    | some a =>
      match digitValue d2 with
      | some b => some (10 * a + b, 2)
      | none => some (a, 1)

/-- The place marker that the text after a `%` completes, as
`findArgEscapes` reads it: an optional `L`, then one or two digits.  Gives
the marker number, the locale flag and the length after the `%`. -/
def escapeAt : QString → Option (Nat × Bool × Nat)
  | 'L' :: r => (escapeDigits r).map fun p => (p.1, true, p.2 + 1)
  | r => (escapeDigits r).map fun p => (p.1, false, p.2)

/-- The numbers of all place markers of a string, in order of occurrence
(the scan of `findArgEscapes`). -/
def escapeNumbers : QString → List Nat
  | [] => []
  | c :: rest =>
    if c = '%' then
      match escapeAt rest with
      | some p => p.1 :: escapeNumbers rest
      | none => escapeNumbers rest
    else escapeNumbers rest

/-- The least number of a list (`min_escape` of `findArgEscapes`). -/
def lowest : List Nat → Option Nat
  | [] => none
  | n :: ns =>
    match lowest ns with
    | none => some n
    | some m => some (min n m)

/-- Model of `replaceArgEscapes` with field width 0: every marker numbered `minEscape`
is replaced by `arg` (by `larg` when it carries the `L` flag), all other text
is copied.  The counter is the number of characters still to skip, those of a
marker just replaced. -/
def replaceArgEscapes (minEscape : Nat) (arg larg : QString) : Nat → QString → QString
  | _, [] => []
  | skip + 1, _ :: rest => replaceArgEscapes minEscape arg larg skip rest
  | 0, c :: rest =>
    if c = '%' then
      match escapeAt rest with
      | some (n, loc, len) =>
        if n = minEscape then
          (if loc then larg else arg) ++ replaceArgEscapes minEscape arg larg len rest
        else c :: replaceArgEscapes minEscape arg larg 0 rest
      | none => c :: replaceArgEscapes minEscape arg larg 0 rest
    else c :: replaceArgEscapes minEscape arg larg 0 rest

/-- The single-argument `QString::arg` family with field width 0: the
lowest-numbered place marker is replaced, at all its occurrences, by the text
`a` of the argument (`la` at `%L` markers); a string without a place marker
is returned unchanged. -/
def arg (s a la : QString) : QString :=
  match lowest (escapeNumbers s) with
  | none => s
  | some m => replaceArgEscapes m a la 0 s

/-- The digit run of a multi-argument place marker: its value and length. -/
def digitRun : QString → Nat → Nat → Nat × Nat
  | [], v, k => (v, k)
  | c :: cs, v, k =>
    match digitValue c with
    | some d => digitRun cs (10 * v + d) (k + 1)
    | none => (v, k)

/-- The place marker that the text after a `%` completes, as the
multi-argument `arg` reads it (`getEscape`): an optional `L`, then a run of
digits whose value is at most 999.  Gives the number and the length after the
`%`. -/
def getEscape (r : QString) : Option (Nat × Nat) :=
  let body : Nat × QString :=
    match r with
    | 'L' :: t => (1, t)
    | t => (0, t)
  let run := digitRun body.2 0 0
  if run.2 = 0 then none
  else if run.1 ≤ 999 then some (run.1, body.1 + run.2)
  else none

/-- The numbers of all place markers of a format, as the multi-argument
`arg` finds them. -/
def multiEscapeNumbers : QString → List Nat
  | [] => []
  | c :: rest =>
    if c = '%' then
      match getEscape rest with
      | some p => p.1 :: multiEscapeNumbers rest
      | none => multiEscapeNumbers rest
    else multiEscapeNumbers rest

/-- Insertion into an ascending list without repetition. -/
def insertUnique (n : Nat) : List Nat → List Nat
  | [] => [n]
  | m :: ms =>
    if n < m then n :: m :: ms
    else if n = m then m :: ms
    else m :: insertUnique n ms

/-- The distinct marker numbers in ascending order: the `k`-th of them is
bound to the `k`-th argument. -/
def numbersUsed (l : List Nat) : List Nat := l.foldr insertUnique []

/-- The replacement pass of the multi-argument `arg`: a marker whose number
is the `k`-th lowest is replaced by the `k`-th argument when there is one,
and left as it stands otherwise. -/
def replaceMulti (used : List Nat) (args : List QString) : Nat → QString → QString
  | _, [] => []
  | skip + 1, _ :: rest => replaceMulti used args skip rest
  | 0, c :: rest =>
    if c = '%' then
      match getEscape rest with
      | some (n, len) =>
        match args.get? (used.indexOf n) with
        | some a => a ++ replaceMulti used args len rest
        | none => c :: replaceMulti used args 0 rest
      | none => c :: replaceMulti used args 0 rest
    else c :: replaceMulti used args 0 rest

/-- The multi-argument `QString::arg(a1, a2, ...)`: the arguments replace the
lowest-numbered distinct place markers of the format in one pass, so that
the text of an argument is never scanned for markers. -/
def multiArg (s : QString) (args : List QString) : QString :=
  replaceMulti (numbersUsed (multiEscapeNumbers s)) args 0 s

/-- The C-locale decimal text of an `int`, which `QString::arg(int)` inserts
at a `%n` marker. -/
def decimal (n : Int) : QString :=
  if n < 0 then '-' :: Nat.toDigits 10 n.natAbs else Nat.toDigits 10 n.natAbs

/-- Scan of the case-insensitive `indexOf(QChar, 0, Qt::CaseInsensitive)`.
Characters are compared after case folding; on the ASCII letters searched
here folding is `Char.toLower`. -/
def indexOfCIFrom (c : Char) : QString → Int → Int
  | [], _ => -1
  | x :: xs, i => if x.toLower = c.toLower then i else indexOfCIFrom c xs (i + 1)

/-- Model of `QString::indexOf(QChar c, 0, Qt::CaseInsensitive)`. -/
def indexOfCI (s : QString) (c : Char) : Int := indexOfCIFrom c s 0

/-- The text of `s` before its first `c` (all of `s` when `c` does not
occur). -/
def textBefore (c : Char) (s : QString) : QString := s.takeWhile (· != c)

/-- The text of `s` after its first `c` (empty when `c` does not occur). -/
def textAfter (c : Char) (s : QString) : QString := (s.dropWhile (· != c)).drop 1

end QStr

/-! ## Library routines taken as parameters -/

/-- The Qt routines on `double` that the record uses; `F` stands for the
type `double`. -/
structure QtDouble (F : Type) where
  /-- Model of `QString::toDouble(bool *ok)`: the returned value and the `ok` flag. -/
  toDouble : QString → F × Bool
  /-- Model of `operator==` on two doubles. -/
  eqD : F → F → Bool
  /-- The C-locale text of a double in format `'f'` with precision 3, the
  replacement `QString::arg(double, 0, 'f', 3)` inserts at a `%n` marker. -/
  fixed3 : F → QString
  /-- The text `QString::arg(double, 0, 'f', 3)` inserts at a `%Ln` marker
  (rendering in the default locale). -/
  fixed3L : F → QString

/-- The Qt routines on `int` that the pitch range uses. -/
structure QtInt where
  /-- Model of `QStringRef::toInt(bool *ok)`: the returned value and the `ok` flag. -/
  toInt : QString → Int × Bool
  /-- The returned value is an `int`. -/
  toInt_range : ∀ s, -2147483648 ≤ (toInt s).1 ∧ (toInt s).1 ≤ 2147483647
  /-- The text `QString::arg(int)` inserts at a `%Ln` marker (rendering in
  the default locale). -/
  intTextL : Int → QString

/-! ## The record -/

/-- The enumeration `OtoEntry::OtoEntryError` (declared in `otoentry.h`),
with the enumerators the source names in `errorString`. -/
inductive OtoEntryError
  | UnknownError
  | FileNameSeparatorNotFound
  | LeftConvertFailed
  | ConsonantConvertFailed
  | RightConvertFailed
  | PreUtteranceConvertFailed
  | OverlapConvertFailed
  | EmptyOtoString
  | EmptyFileName
  deriving DecidableEq, Repr

/-- Modelled from the spec: the class declaration is in `otoentry.h`, which
is not among the sources.  The members are those the copy constructor copies;
`m_error` is an error kind or `none` as in section 3 of the spec, `none`
being the state in which no error has been recorded. -/
structure OtoEntry (F : Type) where
  m_fileName : QString
  m_alias : QString
  m_left : F
  m_consonant : F
  m_right : F
  m_preUtterance : F
  m_overlap : F
  m_error : Option OtoEntryError
  m_valid : Bool

namespace OtoEntry

variable {F : Type}

/-- Model of `OtoEntry::setValid`. -/
def setValid (e : OtoEntry F) (valid : Bool) : OtoEntry F :=
  { e with m_valid := valid }

/-- Model of `OtoEntry::setError`: records the error, then clears `valid`. -/
def setError (e : OtoEntry F) (error : OtoEntryError) : OtoEntry F :=
  setValid { e with m_error := some error } false

/-- Model of `OtoEntry::setFileName`. -/
def setFileName (e : OtoEntry F) (value : QString) : OtoEntry F :=
  { e with m_fileName := value }

/-- Model of `OtoEntry::setAlias`. -/
def setAlias (e : OtoEntry F) (value : QString) : OtoEntry F :=
  { e with m_alias := value }

/-- Model of `OtoEntry::setLeft`. -/
def setLeft (e : OtoEntry F) (value : F) : OtoEntry F :=
  { e with m_left := value }

/-- Model of `OtoEntry::setConsonant`. -/
def setConsonant (e : OtoEntry F) (value : F) : OtoEntry F :=
  { e with m_consonant := value }

/-- Model of `OtoEntry::setRight`. -/
def setRight (e : OtoEntry F) (value : F) : OtoEntry F :=
  { e with m_right := value }

/-- Model of `OtoEntry::setPreUtterance`. -/
def setPreUtterance (e : OtoEntry F) (value : F) : OtoEntry F :=
  { e with m_preUtterance := value }

/-- Model of `OtoEntry::setOverlap`. -/
def setOverlap (e : OtoEntry F) (value : F) : OtoEntry F :=
  { e with m_overlap := value }

/-- The accessor `fileName()`. -/
def fileName (e : OtoEntry F) : QString := e.m_fileName

/-- The accessor `alias()` (`alias` is reserved in Lean). -/
def alias_ (e : OtoEntry F) : QString := e.m_alias

/-- The accessor `left()`. -/
def left (e : OtoEntry F) : F := e.m_left

/-- The accessor `consonant()`. -/
def consonant (e : OtoEntry F) : F := e.m_consonant

/-- The accessor `right()`. -/
def right (e : OtoEntry F) : F := e.m_right

/-- The accessor `preUtterance()`. -/
def preUtterance (e : OtoEntry F) : F := e.m_preUtterance

/-- The accessor `overlap()`. -/
def overlap (e : OtoEntry F) : F := e.m_overlap

/-- The accessor `error()`. -/
def error (e : OtoEntry F) : Option OtoEntryError := e.m_error

/-- The field constructor `OtoEntry(fileName, alias, left, ..., overlap)`:
the member initialiser list sets the seven data members and `m_valid(true)`;
`m_error` keeps the state `init` gives it. -/
def ofFields (init : OtoEntry F) (fileName alias_ : QString)
    (left consonant right preUtterance overlap : F) : OtoEntry F :=
  { init with
    m_fileName := fileName, m_alias := alias_, m_left := left,
    m_consonant := consonant, m_right := right,
    m_preUtterance := preUtterance, m_overlap := overlap, m_valid := true }

/-- The error the `switch` of the parsing constructor records for the
parameter index `i` (`LEFT` = 0, ..., `OVERLAP` = 4); no case matches
another index. -/
def convertError : Nat → Option OtoEntryError
  | 0 => some .LeftConvertFailed
  | 1 => some .ConsonantConvertFailed
  | 2 => some .RightConvertFailed
  | 3 => some .PreUtteranceConvertFailed
  | 4 => some .OverlapConvertFailed
  | _ => none

/-- The loop `for (i = LEFT; i <= OVERLAP; i++) if (!doubleConvertOks.at(i))`
of the parsing constructor, from index `i` on the remaining flags: the first
index whose flag is false, if any. -/
def firstFailed : List Bool → Nat → Option Nat
  | [], _ => none
  | ok :: oks, i => if !ok then some i else firstFailed oks (i + 1)

/-- The parsing constructor `OtoEntry(const QString& otoString)`.  `init` is
the state of the members before the constructor body runs (their default
member initialisers are in `otoentry.h`, which is not among the sources). -/
def ofString (q : QtDouble F) (init : OtoEntry F) (otoString : QString) : OtoEntry F :=
  if otoString.isEmpty then
    init.setError .EmptyOtoString
  else
    let fileNameEndIndex := QStr.indexOf otoString '='
    if fileNameEndIndex ≠ -1 then
      let e := init.setFileName (QStr.left otoString fileNameEndIndex)
      if e.fileName.isEmpty then
        e.setError .EmptyFileName
      else
        let parameterString := QStr.mid otoString (fileNameEndIndex + 1)
        let e := e.setAlias (QStr.sectionAt parameterString ',' 0)
        let cl := q.toDouble (QStr.sectionAt parameterString ',' 1)
        let e := e.setLeft cl.1
        let cc := q.toDouble (QStr.sectionAt parameterString ',' 2)
        let e := e.setConsonant cc.1
        let cr := q.toDouble (QStr.sectionAt parameterString ',' 3)
        let e := e.setRight cr.1
        let cp := q.toDouble (QStr.sectionAt parameterString ',' 4)
        let e := e.setPreUtterance cp.1
        let co := q.toDouble (QStr.sectionAt parameterString ',' 5)
        let e := e.setOverlap co.1
        let doubleConvertOks := [cl.2, cc.2, cr.2, cp.2, co.2]
        match firstFailed doubleConvertOks 0 with
        | some i =>
          match convertError i with
          | some err => e.setError err
          | none => e
        | none => e.setValid true
    else
      init.setError .FileNameSeparatorNotFound

/-- The converted value and the `ok` flag of the comma-delimited field `i`
of the text after the first `=` of a line. -/
def fieldConv (q : QtDouble F) (s : QString) (i : Nat) : F × Bool :=
  q.toDouble (QStr.sectionAt (QStr.textAfter '=' s) ',' i)

/-- A call of one of the seven field setters, with its argument. -/
inductive Setter (F : Type)
  | setFileName (value : QString)
  | setAlias (value : QString)
  | setLeft (value : F)
  | setConsonant (value : F)
  | setRight (value : F)
  | setPreUtterance (value : F)
  | setOverlap (value : F)

/-- The effect of one setter call. -/
def applySetter (e : OtoEntry F) : Setter F → OtoEntry F
  | .setFileName v => e.setFileName v
  | .setAlias v => e.setAlias v
  | .setLeft v => e.setLeft v
  | .setConsonant v => e.setConsonant v
  | .setRight v => e.setRight v
  | .setPreUtterance v => e.setPreUtterance v
  | .setOverlap v => e.setOverlap v

/-- The effect of a sequence of setter calls, first call first. -/
def runSetters (e : OtoEntry F) (calls : List (Setter F)) : OtoEntry F :=
  calls.foldl applySetter e

/-- How an entry is created: by the field constructor or by parsing a
line. -/
inductive Origin (F : Type)
  | fields (fileName alias_ : QString) (left consonant right preUtterance overlap : F)
  | line (otoString : QString)

/-- The entry a creation yields. -/
def Origin.build (q : QtDouble F) (init : OtoEntry F) : Origin F → OtoEntry F
  | .fields f a l c r p o => ofFields init f a l c r p o
  | .line s => ofString q init s

/-- The creation does not pass an empty file name to the field
constructor. -/
def Origin.namesFile : Origin F → Prop
  | .fields f _ _ _ _ _ _ => f ≠ []
  | .line _ => True

/-- Model of `OtoEntry::toString`: the format `%1=%2,%3,%4,%5,%6,%7`, filled by one
two-argument `arg` call (file name, alias) and five `arg(double, 0, 'f', 3)`
calls in turn. -/
def toString (q : QtDouble F) (e : OtoEntry F) : QString :=
  let s := QStr.multiArg "%1=%2,%3,%4,%5,%6,%7".toList [e.m_fileName, e.m_alias]
  let s := QStr.arg s (q.fixed3 e.m_left) (q.fixed3L e.m_left)
  let s := QStr.arg s (q.fixed3 e.m_consonant) (q.fixed3L e.m_consonant)
  let s := QStr.arg s (q.fixed3 e.m_right) (q.fixed3L e.m_right)
  let s := QStr.arg s (q.fixed3 e.m_preUtterance) (q.fixed3L e.m_preUtterance)
  QStr.arg s (q.fixed3 e.m_overlap) (q.fixed3L e.m_overlap)

/-- Model of `OtoEntry::operator==`. -/
def eq (q : QtDouble F) (e rhs : OtoEntry F) : Bool :=
  e.fileName == rhs.fileName && e.alias_ == rhs.alias_
    && q.eqD e.left rhs.left && q.eqD e.consonant rhs.consonant
    && q.eqD e.right rhs.right && q.eqD e.preUtterance rhs.preUtterance
    && q.eqD e.overlap rhs.overlap

/-- Model of `OtoEntry::operator!=`. -/
def ne (q : QtDouble F) (e rhs : OtoEntry F) : Bool :=
  !(eq q e rhs)

end OtoEntry

/-! ## The pitch range -/

namespace OtoEntryFunctions

/-- The enumeration `CharacterCase` (declared in `otoentry.h`), with the
enumerators the source names. -/
inductive CharacterCase
  | Upper
  | Lower
  deriving DecidableEq, Repr

/-- The constant `PitchNameOrder` of `getPitchStringRange`. -/
def PitchNameOrder (cs : CharacterCase) : QString :=
  match cs with
  | .Upper => "CDEFGAB".toList
  | .Lower => "cdefgab".toList

/-- Reduction of an integer to the value range of a 32-bit `int`. -/
def wrap32 (x : Int) : Int :=
  (x + 2147483648) % 4294967296 - 2147483648

/-- The expression `QString("%1%2").arg(PitchNameOrder.at(i)).arg(octave)`. -/
def pitchString (q : QtInt) (order : QString) (currentPitchName : Nat) (currentOctave : Int) :
    QString :=
  let name : QString := [order.getD currentPitchName ' ']
  QStr.arg (QStr.arg "%1%2".toList name name) (QStr.decimal currentOctave)
    (q.intTextL currentOctave)

/-- The inner loop `for (currentPitchName = startPitchName; currentPitchName
<= endPitchName; ++currentPitchName)` of `getPitchStringRange`: it runs
`count = endPitchName + 1 - startPitchName` times (not at all when the start
is past the end), each iteration appending one pitch string. -/
def pitchNameLoop (q : QtInt) (order : QString) (currentOctave : Int) :
    Nat → Nat → List QString
  | 0, _ => []
  | count + 1, currentPitchName =>
    pitchString q order currentPitchName currentOctave
      :: pitchNameLoop q order currentOctave count (currentPitchName + 1)

/-- The outer loop `for (currentOctave = bottomOctave; currentOctave <=
topOctave; ++currentOctave)` of `getPitchStringRange`.  The counter is a
32-bit `int`, incremented modulo 2^32; each iteration costs one unit of
fuel and the result is `none` when the fuel runs out before the loop
exits. -/
def octaveLoop (q : QtInt) (order : QString) (bottomPitchName topPitchName : Nat)
    (bottomOctave topOctave : Int) : Nat → Int → List QString → Option (List QString)
  | 0, _, _ => none
  | fuel + 1, currentOctave, pitchStringRange =>
    if currentOctave ≤ topOctave then
      let startPitchName := if currentOctave = bottomOctave then bottomPitchName else 0
      let endPitchName := if currentOctave = topOctave then topPitchName else order.length - 1
      octaveLoop q order bottomPitchName topPitchName bottomOctave topOctave fuel
        (wrap32 (currentOctave + 1))
        (pitchStringRange
          ++ pitchNameLoop q order currentOctave (endPitchName + 1 - startPitchName)
              startPitchName)
    else some pitchStringRange

/-- Model of `OtoEntryFunctions::getPitchStringRange`, with `fuel` bounding the number
of iterations of the octave loop (`none`: the loop has not exited). -/
def getPitchStringRange (q : QtInt) (fuel : Nat) (bottomPitch topPitch : QString)
    (cs : CharacterCase) : Option (List QString) :=
  let order := PitchNameOrder cs
  match bottomPitch, topPitch with
  | [], _ => some []
  | _ :: _, [] => some []
  | b0 :: bottomRest, t0 :: topRest =>
    let bottomPitchName := QStr.indexOfCI order b0
    let topPitchName := QStr.indexOfCI order t0
    if bottomPitchName = -1 ∨ topPitchName = -1 then some []
    else
      let bottomOctave := q.toInt bottomRest
      let topOctave := q.toInt topRest
      if !(bottomOctave.2 && topOctave.2) then some []
      else
        octaveLoop q order bottomPitchName.toNat topPitchName.toNat bottomOctave.1 topOctave.1
          fuel bottomOctave.1 []

/-- A pitch string the range generator rejects: it is empty, or its first
character is not, case-insensitively, one of the seven letters, or the text
after its first character does not convert to an `int`. -/
def malformedPitch (q : QtInt) : QString → Prop
  | [] => True
  | c :: rest => c.toLower ∉ "cdefgab".toList ∨ (q.toInt rest).2 = false

/-- The order on pairs (octave, letter index): octave first, then letter. -/
def pitchLe (a b : Int × Nat) : Prop := a.1 < b.1 ∨ (a.1 = b.1 ∧ a.2 ≤ b.2)

/-- The strict order on pairs (octave, letter index). -/
def pitchLt (a b : Int × Nat) : Prop := a.1 < b.1 ∨ (a.1 = b.1 ∧ a.2 < b.2)

/-- The pairs of octave `o` within the range from `(bo, bl)` to `(tp, tl)`,
letters ascending. -/
def octaveRow (bl tl : Nat) (bo tp o : Int) : List (Int × Nat) :=
  (List.range' (if o = bo then bl else 0)
    ((if o = tp then tl else 6) + 1 - (if o = bo then bl else 0))).map fun l => (o, l)

/-- The pairs (octave, letter index) from `(bo, bl)` to `(tp, tl)`, octaves
ascending and letters ascending within an octave. -/
def pitchPairs (bo : Int) (bl : Nat) (tp : Int) (tl : Nat) : List (Int × Nat) :=
  (List.range (tp + 1 - bo).toNat).flatMap fun k => octaveRow bl tl bo tp (bo + (k : Int))

/-- The pitch string of a pair: the letter of the alphabet at the letter
index, then the octave in decimal. -/
def renderPitch (cs : CharacterCase) (p : Int × Nat) : QString :=
  (PitchNameOrder cs).getD p.2 ' ' :: QStr.decimal p.1

end OtoEntryFunctions

/-! ## The suffix helpers, assignment and field access -/

/-- The enumeration `Qt::CaseSensitivity`. -/
inductive CaseSensitivity
  | CaseInsensitive
  | CaseSensitive
  deriving DecidableEq, Repr

namespace QStr

/-- Equality of two characters under a case policy; `fold` stands for the
case folding of `QChar`, which the case-insensitive searches of `QString`
apply to both sides. -/
def eqUnder (fold : Char → Char) (cs : CaseSensitivity) (a b : Char) : Bool :=
  match cs with
  | .CaseSensitive => a == b
  | .CaseInsensitive => fold a == fold b

/-- Two texts have the same length and agree character by character under
the case policy. -/
def sameText (fold : Char → Char) (cs : CaseSensitivity) : QString → QString → Bool
  | [], [] => true
  | a :: as, b :: bs => eqUnder fold cs a b && sameText fold cs as bs
  | _, _ => false

/-- The needle `sub` matches the text of `s` at position `i`. -/
def matchAt (fold : Char → Char) (cs : CaseSensitivity) (s sub : QString) (i : Nat) : Bool :=
  sameText fold cs ((s.drop i).take sub.length) sub

/-- The backward scan of `lastIndexOf`: the greatest position at or below
the given one where the needle matches, `-1` when there is none. -/
def lastIndexOfHelper (fold : Char → Char) (cs : CaseSensitivity) (s sub : QString) :
    Nat → Int
  | 0 => if matchAt fold cs s sub 0 then 0 else -1
  | k + 1 =>
    if matchAt fold cs s sub (k + 1) then ((k + 1 : Nat) : Int)
    else lastIndexOfHelper fold cs s sub k

/-- Model of `QString::lastIndexOf(sub, -1, cs)`: the search starts at the
last character (`-1` counts from the end) and no later than `size - sub.size`,
and goes backwards; `-1` when the string is empty, when the needle is longer
than the string, or when there is no match. -/
def lastIndexOf (fold : Char → Char) (s sub : QString) (cs : CaseSensitivity) : Int :=
  let l : Int := s.length
  let sl : Int := sub.length
  let start : Int := -1 + l
  let delta : Int := l - sl
  if start < 0 ∨ delta < 0 then -1
  else lastIndexOfHelper fold cs s sub (min start delta).toNat

/-- Model of `QString::remove(pos, len)`: a negative position counts from
the end; a position outside the string removes nothing; a length reaching
past the end truncates at the position. -/
def remove (s : QString) (pos len : Int) : QString :=
  let p : Int := if pos < 0 then pos + s.length else pos
  if p < 0 ∨ (s.length : Int) ≤ p then s
  else if (s.length : Int) - p ≤ len then s.take p.toNat
  else if 0 < len then s.take p.toNat ++ s.drop (p + len).toNat
  else s

end QStr

namespace OtoEntryFunctions

/-- Model of `OtoEntryFunctions::removeSuffix`. -/
def removeSuffix (fold : Char → Char) (string suffix : QString) (cs : CaseSensitivity) :
    QString :=
  let suffixPos := QStr.lastIndexOf fold string suffix cs
  if suffixPos ≠ -1 then QStr.remove string suffixPos suffix.length
  else string

/-- The loop of `removePitchSuffix` over the pitch range.  The second
component is what the loop writes to `*pitchRemoved`, `none` when it writes
nothing. -/
def pitchLoop (fold : Char → Char) (alias_ : QString) (cs : CaseSensitivity) :
    List QString → QString × Option QString
  | [] => (alias_, none)
  | pitch :: rest =>
    let pitchPos := QStr.lastIndexOf fold alias_ pitch cs
    if pitchPos ≠ -1 then (removeSuffix fold alias_ pitch cs, some pitch)
    else pitchLoop fold alias_ cs rest

/-- Model of `OtoEntryFunctions::removePitchSuffix`, called with a non-null
`pitchRemoved`: the returned alias and the pitch written to `*pitchRemoved`
(`none`: nothing written).  The result is `none` when the generation of the
pitch range does not return within the fuel. -/
def removePitchSuffix (q : QtInt) (fold : Char → Char) (fuel : Nat) (alias_ : QString)
    (bottomPitch topPitch : QString) (cs : CaseSensitivity)
    (pitchRangeCharacterCase : CharacterCase) : Option (QString × Option QString) :=
  (getPitchStringRange q fuel bottomPitch topPitch pitchRangeCharacterCase).map
    fun pitchRange => pitchLoop fold alias_ cs pitchRange

/-- The loop of `getDigitSuffix`, with `count = current + 1` (the loop ends
when `current` falls below 0).  The second component is what is written to
`*position`, `none` when nothing is written. -/
def digitLoop (isDigit : Char → Bool) (string : QString) :
    Nat → QString → QString × Option Int
  | 0, result => (result, none)
  | current + 1, result =>
    let c := string.getD current ' '
    if isDigit c then digitLoop isDigit string current (c :: result)
    else
      (result,
        some (if (current : Int) ≠ (string.length : Int) - 1 then (current : Int) + 1 else -1))

/-- Model of `OtoEntryFunctions::getDigitSuffix`, called with a non-null
`position`; `isDigit` stands for `QChar::isDigit`. -/
def getDigitSuffix (isDigit : Char → Bool) (string : QString) : QString × Option Int :=
  digitLoop isDigit string string.length []

end OtoEntryFunctions

namespace OtoEntry

variable {F : Type}

/-- Model of `OtoEntry::operator=`: the receiver after `*this = rhs`. -/
def assign (q : QtDouble F) (this rhs : OtoEntry F) : OtoEntry F :=
  if ne q this rhs then
    { m_fileName := rhs.m_fileName, m_alias := rhs.m_alias, m_left := rhs.m_left,
      m_consonant := rhs.m_consonant, m_right := rhs.m_right,
      m_preUtterance := rhs.m_preUtterance, m_overlap := rhs.m_overlap,
      m_error := rhs.m_error, m_valid := rhs.m_valid }
  else this

/-- Model of the copy constructor `OtoEntry(const OtoEntry& other)`. -/
def copy (other : OtoEntry F) : OtoEntry F :=
  { m_fileName := other.m_fileName, m_alias := other.m_alias, m_left := other.m_left,
    m_consonant := other.m_consonant, m_right := other.m_right,
    m_preUtterance := other.m_preUtterance, m_overlap := other.m_overlap,
    m_error := other.m_error, m_valid := other.m_valid }

/-- The numeric member with index `i`: 1 = left, 2 = consonant, 3 = right,
4 = preUtterance, 5 = overlap. -/
def numericField (e : OtoEntry F) : Nat → Option F
  | 1 => some e.m_left
  | 2 => some e.m_consonant
  | 3 => some e.m_right
  | 4 => some e.m_preUtterance
  | 5 => some e.m_overlap
  | _ => none

end OtoEntry

/-! ## Occurrences of a text in a string -/

namespace QStr

/-- The text `sub` occurs in `s` at position `i` under the case policy. -/
def occursAt (fold : Char → Char) (cs : CaseSensitivity) (s sub : QString) (i : Nat) : Prop :=
  i + sub.length ≤ s.length ∧ sameText fold cs ((s.drop i).take sub.length) sub = true

instance (fold : Char → Char) (cs : CaseSensitivity) (s sub : QString) (i : Nat) :
    Decidable (occursAt fold cs s sub i) := by
  unfold occursAt
  infer_instance

/-- The text `sub` is a suffix of `s` under the case policy. -/
def endsWithUnder (fold : Char → Char) (cs : CaseSensitivity) (s sub : QString) : Prop :=
  sub.length ≤ s.length ∧ occursAt fold cs s sub (s.length - sub.length)

instance (fold : Char → Char) (cs : CaseSensitivity) (s sub : QString) :
    Decidable (endsWithUnder fold cs s sub) := by
  unfold endsWithUnder
  infer_instance

end QStr

/-! ## A reference implementation of the numeric routines

Decimal numbers `mant / 10 ^ exp` stand for the doubles.  The converters
read plain decimal literals only; they serve to run the definitions above on
concrete lines. -/

/-- A decimal number `mant / 10 ^ exp`, kept with the least possible `exp`. -/
structure Dec where
  mant : Int
  exp : Nat
  deriving DecidableEq, Repr

/-- Removal of trailing zero decimals. -/
def Dec.norm : Int → Nat → Dec
  | m, 0 => ⟨m, 0⟩
  | m, e + 1 => if m % 10 = 0 then Dec.norm (m / 10) e else ⟨m, e + 1⟩

/-- The whole number `n`. -/
def Dec.ofInt (n : Int) : Dec := ⟨n, 0⟩

/-- The value of a run of decimal digits, `none` if some character is not a
digit. -/
def natOfDigits : QString → Nat → Option Nat
  | [], acc => some acc
  | c :: cs, acc =>
    match QStr.digitValue c with
    | some d => natOfDigits cs (10 * acc + d)
    | none => none

/-- Reference `toDouble`: an optional sign, digits, an optional fraction; at
least one digit.  A failed conversion returns 0 and `false`. -/
def refToDouble (s : QString) : Dec × Bool :=
  let sb : Bool × QString :=
    match s with
    | '-' :: r => (true, r)
    | '+' :: r => (false, r)
    | r => (false, r)
  let ip := sb.2.takeWhile (· != '.')
  let fp := (sb.2.dropWhile (· != '.')).drop 1
  if ip.isEmpty && fp.isEmpty then (⟨0, 0⟩, false)
  else
    match natOfDigits (ip ++ fp) 0 with
    | some m => (Dec.norm (if sb.1 then -(m : Int) else m) fp.length, true)
    | none => (⟨0, 0⟩, false)

/-- Three decimal digits, zero padded. -/
def pad3 (n : Nat) : QString :=
  let d := Nat.toDigits 10 n
  List.replicate (3 - d.length) '0' ++ d

/-- Reference fixed notation with three decimals (rounding half away from
zero). -/
def refFixed3 (v : Dec) : QString :=
  let a := v.mant.natAbs
  let m : Nat :=
    if v.exp ≤ 3 then a * 10 ^ (3 - v.exp)
    else (a + 10 ^ (v.exp - 3) / 2) / 10 ^ (v.exp - 3)
  (if v.mant < 0 then ['-'] else []) ++ Nat.toDigits 10 (m / 1000) ++ '.' :: pad3 (m % 1000)

/-- The reference routines on doubles. -/
def refDouble : QtDouble Dec where
  toDouble := refToDouble
  eqD := fun a b => decide (a = b)
  fixed3 := refFixed3
  fixed3L := refFixed3

/-- The integer an optionally signed run of digits denotes, if it is one. -/
def signedDigits (s : QString) : Option Int :=
  let sb : Bool × QString :=
    match s with
    | '-' :: r => (true, r)
    | '+' :: r => (false, r)
    | r => (false, r)
  if sb.2.isEmpty then none
  else (natOfDigits sb.2 0).map fun m => if sb.1 then -(m : Int) else m

/-- Reference `toInt`: an optional sign and digits, within the range of a
32-bit `int`.  A failed conversion returns 0 and `false`. -/
def refToInt (s : QString) : Int × Bool :=
  match signedDigits s with
  | some v => if -2147483648 ≤ v ∧ v ≤ 2147483647 then (v, true) else (0, false)
  | none => (0, false)

/-- The reference routines on ints. -/
def refInt : QtInt where
  toInt := refToInt
  toInt_range := by
    intro s
    unfold refToInt
    cases signedDigits s with
    | none => exact ⟨by decide, by decide⟩
    | some v =>
      by_cases h : -2147483648 ≤ v ∧ v ≤ 2147483647
      · simp [h]
      · simp [h]
  intTextL := QStr.decimal

/-- A member state with no error recorded, empty strings and zero numbers,
used as the state before a constructor body runs when evaluating the
reference implementation. -/
def refInit : OtoEntry Dec :=
  { m_fileName := [], m_alias := [], m_left := ⟨0, 0⟩, m_consonant := ⟨0, 0⟩,
    m_right := ⟨0, 0⟩, m_preUtterance := ⟨0, 0⟩, m_overlap := ⟨0, 0⟩,
    m_error := none, m_valid := false }

/-! ## Lemmas on the QString operations -/

namespace QStr

theorem indexOfFrom_eq (c : Char) (s : QString) (i : Int) :
    indexOfFrom c s i = if c ∈ s then i + ((textBefore c s).length : Int) else -1 := by
  induction s generalizing i with
  | nil => simp [indexOfFrom]
  | cons x xs ih =>
    by_cases hx : x = c
    · subst hx
      simp [indexOfFrom, textBefore]
    · have hx' : ¬ c = x := fun h => hx h.symm
      simp only [indexOfFrom, hx, if_false, ih, List.mem_cons, hx', false_or, textBefore]
      split_ifs with hm
      · have : (x != c) = true := by simpa using hx
        simp [List.takeWhile, this]
        ring
      · rfl

theorem indexOf_eq_neg_one_iff (c : Char) (s : QString) : indexOf s c = -1 ↔ c ∉ s := by
  unfold indexOf
  rw [indexOfFrom_eq]
  split_ifs with h
  · simp only [h, not_true_eq_false, iff_false]
    omega
  · simp [h]

theorem indexOf_of_mem {c : Char} {s : QString} (h : c ∈ s) :
    indexOf s c = ((textBefore c s).length : Int) := by
  unfold indexOf
  rw [indexOfFrom_eq, if_pos h]
  simp

theorem take_length_textBefore (c : Char) (s : QString) :
    s.take (textBefore c s).length = textBefore c s := by
  induction s with
  | nil => rfl
  | cons x xs ih =>
    unfold textBefore at ih ⊢
    by_cases hx : (x != c) = true
    · simp [List.takeWhile, hx, ih]
    · simp [List.takeWhile, hx]

theorem drop_length_textBefore (c : Char) (s : QString) :
    s.drop ((textBefore c s).length + 1) = textAfter c s := by
  induction s with
  | nil => rfl
  | cons x xs ih =>
    unfold textBefore textAfter at ih ⊢
    by_cases hx : (x != c) = true
    · simp only [List.takeWhile, hx, List.length_cons, List.drop_succ_cons, List.dropWhile]
      exact ih
    · simp [List.takeWhile, List.dropWhile, hx]

theorem length_textBefore_lt {c : Char} {s : QString} (h : c ∈ s) :
    (textBefore c s).length < s.length := by
  induction s with
  | nil => simp at h
  | cons x xs ih =>
    unfold textBefore at ih ⊢
    by_cases hx : (x != c) = true
    · have hc : c ∈ xs := by
        rcases List.mem_cons.1 h with h1 | h1
        · subst h1
          simp at hx
        · exact h1
      simpa [List.takeWhile, hx] using ih hc
    · simp [List.takeWhile, hx]

theorem left_indexOf {c : Char} {s : QString} (h : c ∈ s) :
    left s (indexOf s c) = textBefore c s := by
  have hlt := length_textBefore_lt h
  unfold left
  rw [indexOf_of_mem h, if_neg (by omega)]
  simpa using take_length_textBefore c s

theorem mid_indexOf {c : Char} {s : QString} (h : c ∈ s) :
    mid s (indexOf s c + 1) = textAfter c s := by
  have hlt := length_textBefore_lt h
  unfold mid
  rw [indexOf_of_mem h, if_neg (by omega)]
  have : ((textBefore c s).length + 1 : Int).toNat = (textBefore c s).length + 1 := by omega
  rw [this]
  exact drop_length_textBefore c s

theorem textBefore_eq_nil_iff (c : Char) (s : QString) :
    textBefore c s = [] ↔ s = [] ∨ s.head? = some c := by
  cases s with
  | nil => simp [textBefore]
  | cons x xs =>
    by_cases hx : x = c
    · simp [textBefore, List.takeWhile, hx]
    · have hb : (x != c) = true := by simpa using hx
      simp [textBefore, List.takeWhile, hx, hb]

theorem split_ne_nil (sep : Char) (s : QString) : split sep s ≠ [] := by
  cases s with
  | nil => simp [split]
  | cons x xs =>
    unfold split
    split_ifs
    · simp
    · split <;> simp

theorem head_split (sep : Char) (s : QString) :
    (split sep s).head? = some (textBefore sep s) := by
  induction s with
  | nil => simp [split, textBefore]
  | cons x xs ih =>
    unfold split textBefore
    by_cases hx : x = sep
    · simp [hx, List.takeWhile]
    · have hb : (x != sep) = true := by simpa using hx
      simp only [hx, if_false, List.takeWhile, hb]
      cases hsp : split sep xs with
      | nil => exact absurd hsp (split_ne_nil sep xs)
      | cons f fs =>
        rw [hsp] at ih
        simp only [List.head?_cons, Option.some.injEq] at ih
        simp [ih, textBefore]

theorem sectionAt_zero (sep : Char) (s : QString) :
    sectionAt s sep 0 = textBefore sep s := by
  unfold sectionAt
  have h := head_split sep s
  cases hsp : split sep s with
  | nil => exact absurd hsp (split_ne_nil sep s)
  | cons f fs =>
    rw [hsp] at h
    simpa using h

end QStr

/-! ## The parsing constructor -/

namespace OtoEntry

variable {F : Type}

theorem ofString_nil (q : QtDouble F) (init : OtoEntry F) :
    ofString q init [] = init.setError .EmptyOtoString := by
  simp [ofString]

theorem ofString_no_separator (q : QtDouble F) (init : OtoEntry F) {s : QString}
    (hs : s ≠ []) (h : '=' ∉ s) :
    ofString q init s = init.setError .FileNameSeparatorNotFound := by
  have h1 : QStr.indexOf s '=' = -1 := (QStr.indexOf_eq_neg_one_iff '=' s).2 h
  cases s with
  | nil => exact absurd rfl hs
  | cons x xs => simp [ofString, h1]

theorem ofString_empty_fileName (q : QtDouble F) (init : OtoEntry F) {s : QString}
    (h : s.head? = some '=') :
    ofString q init s = (init.setFileName []).setError .EmptyFileName := by
  cases s with
  | nil => simp at h
  | cons x xs =>
    simp only [List.head?_cons, Option.some.injEq] at h
    subst h
    have hm : '=' ∈ ('=' :: xs) := List.mem_cons_self _ _
    have h1 : QStr.indexOf ('=' :: xs) '=' ≠ -1 := by
      rw [Ne, QStr.indexOf_eq_neg_one_iff]
      exact fun hn => hn hm
    have h2 : QStr.left ('=' :: xs) (QStr.indexOf ('=' :: xs) '=') = [] := by
      rw [QStr.left_indexOf hm]
      simp [QStr.textBefore, List.takeWhile]
    simp [ofString, h1, h2, fileName, setFileName]

/-- The parsing constructor on a line with a non-empty file name: all seven
data members are assigned, then the first failed conversion decides. -/
theorem ofString_fields (q : QtDouble F) (init : OtoEntry F) {s : QString}
    (hm : '=' ∈ s) (hf : QStr.textBefore '=' s ≠ []) :
    ofString q init s =
      (let e : OtoEntry F :=
        { init with
          m_fileName := QStr.textBefore '=' s
          m_alias := QStr.textBefore ',' (QStr.textAfter '=' s)
          m_left := (fieldConv q s 1).1
          m_consonant := (fieldConv q s 2).1
          m_right := (fieldConv q s 3).1
          m_preUtterance := (fieldConv q s 4).1
          m_overlap := (fieldConv q s 5).1 }
      match firstFailed [(fieldConv q s 1).2, (fieldConv q s 2).2, (fieldConv q s 3).2,
          (fieldConv q s 4).2, (fieldConv q s 5).2] 0 with
      | some i =>
        match convertError i with
        | some err => e.setError err
        | none => e
      | none => e.setValid true) := by
  have hs : s ≠ [] := by
    rintro rfl
    simp at hm
  have h1 : QStr.indexOf s '=' ≠ -1 := by
    rw [Ne, QStr.indexOf_eq_neg_one_iff]
    exact fun hn => hn hm
  have hs' : s.isEmpty = false := by
    cases s with
    | nil => exact absurd rfl hs
    | cons x xs => rfl
  have hf' : (QStr.textBefore '=' s).isEmpty = false := by
    cases h : QStr.textBefore '=' s with
    | nil => exact absurd h hf
    | cons x xs => rfl
  simp only [ofString, hs', h1, QStr.left_indexOf hm, QStr.mid_indexOf hm, fileName, setFileName,
    hf', QStr.sectionAt_zero, setAlias, setLeft, setConsonant, setRight, setPreUtterance,
    setOverlap, fieldConv]
  simp [h1]

theorem forall_fields (P : Nat → Prop) :
    (∀ i, 1 ≤ i → i ≤ 5 → P i) ↔ P 1 ∧ P 2 ∧ P 3 ∧ P 4 ∧ P 5 := by
  constructor
  · intro h
    exact ⟨h 1 (by omega) (by omega), h 2 (by omega) (by omega), h 3 (by omega) (by omega),
      h 4 (by omega) (by omega), h 5 (by omega) (by omega)⟩
  · rintro ⟨h1, h2, h3, h4, h5⟩ i hi1 hi5
    interval_cases i <;> assumption

/-- C1: a parsed entry is valid exactly when the line is non-empty, contains
`=`, does not start with `=`, and each of the comma-delimited fields 1 to 5
of the text after the first `=` converts; a valid parsed entry carries no
error (the error member is never assigned on that path, so it is still the
`none` the initial member state gives it). -/
theorem ofString_valid_iff (q : QtDouble F) (init : OtoEntry F)
    (hinit : init.m_error = none) (s : QString) :
    ((ofString q init s).m_valid = true ↔
        s ≠ [] ∧ '=' ∈ s ∧ s.head? ≠ some '=' ∧
          ∀ i, 1 ≤ i → i ≤ 5 → (fieldConv q s i).2 = true) ∧
      ((ofString q init s).m_valid = true → (ofString q init s).m_error = none) := by
  by_cases hs : s = []
  · subst hs
    simp [ofString_nil, setError, setValid]
  by_cases hm : '=' ∈ s
  swap
  · simp [ofString_no_separator q init hs hm, setError, setValid, hm]
  by_cases hh : s.head? = some '='
  · simp [ofString_empty_fileName q init hh, setError, setValid, hh]
  have hf : QStr.textBefore '=' s ≠ [] := by
    rw [Ne, QStr.textBefore_eq_nil_iff]
    tauto
  rw [ofString_fields q init hm hf, forall_fields]
  generalize (fieldConv q s 1).2 = b1
  generalize (fieldConv q s 2).2 = b2
  generalize (fieldConv q s 3).2 = b3
  generalize (fieldConv q s 4).2 = b4
  generalize (fieldConv q s 5).2 = b5
  cases b1 <;> cases b2 <;> cases b3 <;> cases b4 <;> cases b5 <;>
    simp [firstFailed, convertError, setError, setValid, hinit, hs, hm, hh]

/-- C1, evaluated with the reference routines on the line
`f.wav=a,1,2,3,4,5`. -/
theorem ofString_valid_iff_witness :
    refInit.m_error = none ∧
      (((ofString refDouble refInit "f.wav=a,1,2,3,4,5".toList).m_valid = true ↔
          "f.wav=a,1,2,3,4,5".toList ≠ [] ∧ '=' ∈ "f.wav=a,1,2,3,4,5".toList ∧
            "f.wav=a,1,2,3,4,5".toList.head? ≠ some '=' ∧
            ∀ i, 1 ≤ i → i ≤ 5 →
              (fieldConv refDouble "f.wav=a,1,2,3,4,5".toList i).2 = true) ∧
        ((ofString refDouble refInit "f.wav=a,1,2,3,4,5".toList).m_valid = true →
          (ofString refDouble refInit "f.wav=a,1,2,3,4,5".toList).m_error = none)) :=
  ⟨rfl, ofString_valid_iff refDouble refInit rfl "f.wav=a,1,2,3,4,5".toList⟩

/-- C2: the structural errors come in strict order.  The empty line gives
`EmptyOtoString`; a non-empty line without `=` gives
`FileNameSeparatorNotFound`; a line whose first character is `=` gives
`EmptyFileName` whatever follows (so do `=a,1,2,3,4,5` and `=a,x`).  The
entry is invalid in each case. -/
theorem ofString_structural_errors (q : QtDouble F) (init : OtoEntry F) :
    ((ofString q init []).m_error = some .EmptyOtoString ∧
        (ofString q init []).m_valid = false) ∧
      (∀ s : QString, s ≠ [] → '=' ∉ s →
        (ofString q init s).m_error = some .FileNameSeparatorNotFound ∧
          (ofString q init s).m_valid = false) ∧
      (∀ rest : QString,
        (ofString q init ('=' :: rest)).m_error = some .EmptyFileName ∧
          (ofString q init ('=' :: rest)).m_valid = false) ∧
      ((ofString q init "=a,1,2,3,4,5".toList).m_error = some .EmptyFileName ∧
        (ofString q init "=a,1,2,3,4,5".toList).m_valid = false) ∧
      ((ofString q init "=a,x".toList).m_error = some .EmptyFileName ∧
        (ofString q init "=a,x".toList).m_valid = false) := by
  have key : ∀ rest : QString,
      (ofString q init ('=' :: rest)).m_error = some .EmptyFileName ∧
        (ofString q init ('=' :: rest)).m_valid = false := by
    intro rest
    rw [ofString_empty_fileName q init (s := '=' :: rest) rfl]
    simp [setError, setValid]
  refine ⟨?_, ?_, key, key _, key _⟩
  · simp [ofString_nil, setError, setValid]
  · intro s hs hm
    rw [ofString_no_separator q init hs hm]
    simp [setError, setValid]

/-- C2, evaluated with the reference routines: the line `abc` has no
separator. -/
theorem ofString_structural_errors_witness :
    "abc".toList ≠ [] ∧ '=' ∉ "abc".toList ∧
      (ofString refDouble refInit "abc".toList).m_error = some .FileNameSeparatorNotFound ∧
      (ofString refDouble refInit "abc".toList).m_valid = false :=
  ⟨by decide, by decide,
    (ofString_structural_errors refDouble refInit).2.1 "abc".toList (by decide) (by decide)⟩

theorem sectionAt_absent {t : QString} {sep : Char} {i : Nat}
    (h : (QStr.split sep t).length ≤ i) : QStr.sectionAt t sep i = [] := by
  unfold QStr.sectionAt
  rw [List.getD_eq_getElem?_getD, List.getElem?_eq_none h]
  rfl

/-- C3: on a line with a non-empty file name, when the numeric field `i`
(1 = left, ..., 5 = overlap) fails to convert and every numeric field before
it converts, the entry is invalid and its error is the one of field `i`,
whatever the later fields hold.  In particular, given that the empty string
does not convert, a line with only `k < 5` numeric fields, all convertible,
fails with the error of field `k + 1`. -/
theorem ofString_first_failed_field (q : QtDouble F) (init : OtoEntry F) (s : QString)
    (hm : '=' ∈ s) (hf : QStr.textBefore '=' s ≠ []) :
    (∀ i, 1 ≤ i → i ≤ 5 → (fieldConv q s i).2 = false →
        (∀ j, 1 ≤ j → j < i → (fieldConv q s j).2 = true) →
        (ofString q init s).m_valid = false ∧
          (ofString q init s).m_error =
            [OtoEntryError.LeftConvertFailed, .ConsonantConvertFailed, .RightConvertFailed,
              .PreUtteranceConvertFailed, .OverlapConvertFailed].get? (i - 1)) ∧
      (∀ k, k < 5 → (q.toDouble []).2 = false →
        (QStr.split ',' (QStr.textAfter '=' s)).length = k + 1 →
        (∀ j, 1 ≤ j → j ≤ k → (fieldConv q s j).2 = true) →
        (ofString q init s).m_valid = false ∧
          (ofString q init s).m_error =
            [OtoEntryError.LeftConvertFailed, .ConsonantConvertFailed, .RightConvertFailed,
              .PreUtteranceConvertFailed, .OverlapConvertFailed].get? k) := by
  have main : ∀ i, 1 ≤ i → i ≤ 5 → (fieldConv q s i).2 = false →
      (∀ j, 1 ≤ j → j < i → (fieldConv q s j).2 = true) →
      (ofString q init s).m_valid = false ∧
        (ofString q init s).m_error =
          [OtoEntryError.LeftConvertFailed, .ConsonantConvertFailed, .RightConvertFailed,
            .PreUtteranceConvertFailed, .OverlapConvertFailed].get? (i - 1) := by
    intro i hi1 hi5 hfail hprev
    rw [ofString_fields q init hm hf]
    have e1 := hprev 1 (le_refl 1)
    have e2 := hprev 2 (by omega)
    have e3 := hprev 3 (by omega)
    have e4 := hprev 4 (by omega)
    clear hprev
    interval_cases i <;>
      simp_all [firstFailed, convertError, setError, setValid]
  refine ⟨main, ?_⟩
  intro k hk hempty hlen hconv
  have hfail : (fieldConv q s (k + 1)).2 = false := by
    unfold fieldConv
    rw [sectionAt_absent (by omega)]
    exact hempty
  have := main (k + 1) (by omega) (by omega) hfail (fun j h1 h2 => hconv j h1 (by omega))
  simpa using this

/-- C3, evaluated with the reference routines on `f.wav=a,x,2,3,4,5`: the
first numeric field fails, the later ones are well formed. -/
theorem ofString_first_failed_field_witness :
    '=' ∈ "f.wav=a,x,2,3,4,5".toList ∧
      QStr.textBefore '=' "f.wav=a,x,2,3,4,5".toList ≠ [] ∧
      (fieldConv refDouble "f.wav=a,x,2,3,4,5".toList 1).2 = false ∧
      (fieldConv refDouble "f.wav=a,x,2,3,4,5".toList 2).2 = true ∧
      (ofString refDouble refInit "f.wav=a,x,2,3,4,5".toList).m_valid = false ∧
      (ofString refDouble refInit "f.wav=a,x,2,3,4,5".toList).m_error =
        some .LeftConvertFailed :=
  ⟨by decide, by decide, by decide, by decide,
    (ofString_first_failed_field refDouble refInit "f.wav=a,x,2,3,4,5".toList
      (by decide) (by decide)).1 1 (le_refl 1) (by decide) (by decide)
      (fun j h1 h2 => absurd h1 (by omega))⟩

/-- C4: on a line that parses to a valid entry, `fileName` is the text
before the first `=`, `alias` is the text between the first `=` and the
first following `,`, and the five numbers are the converted values of the
comma-delimited fields 1 to 5 of the text after the first `=`, in the order
left, consonant, right, preUtterance, overlap. -/
theorem ofString_valid_fields (q : QtDouble F) (init : OtoEntry F) (s : QString)
    (hv : (ofString q init s).m_valid = true) :
    (ofString q init s).m_fileName = QStr.textBefore '=' s ∧
      (ofString q init s).m_alias = QStr.textBefore ',' (QStr.textAfter '=' s) ∧
      (ofString q init s).m_left = (fieldConv q s 1).1 ∧
      (ofString q init s).m_consonant = (fieldConv q s 2).1 ∧
      (ofString q init s).m_right = (fieldConv q s 3).1 ∧
      (ofString q init s).m_preUtterance = (fieldConv q s 4).1 ∧
      (ofString q init s).m_overlap = (fieldConv q s 5).1 := by
  by_cases hs : s = []
  · subst hs
    simp [ofString_nil, setError, setValid] at hv
  by_cases hm : '=' ∈ s
  swap
  · simp [ofString_no_separator q init hs hm, setError, setValid] at hv
  by_cases hh : s.head? = some '='
  · simp [ofString_empty_fileName q init hh, setError, setValid] at hv
  have hf : QStr.textBefore '=' s ≠ [] := by
    rw [Ne, QStr.textBefore_eq_nil_iff]
    tauto
  rw [ofString_fields q init hm hf] at hv ⊢
  generalize (fieldConv q s 1).2 = b1 at hv ⊢
  generalize (fieldConv q s 2).2 = b2 at hv ⊢
  generalize (fieldConv q s 3).2 = b3 at hv ⊢
  generalize (fieldConv q s 4).2 = b4 at hv ⊢
  generalize (fieldConv q s 5).2 = b5 at hv ⊢
  cases b1 <;> cases b2 <;> cases b3 <;> cases b4 <;> cases b5 <;>
    simp_all [firstFailed, convertError, setError, setValid]

/-- C4, evaluated with the reference routines: `f.wav=a,1,2,3,4,5` yields
file name `f.wav`, alias `a` and the values 1, 2, 3, 4, 5. -/
theorem ofString_valid_fields_witness :
    (ofString refDouble refInit "f.wav=a,1,2,3,4,5".toList).m_valid = true ∧
      (ofString refDouble refInit "f.wav=a,1,2,3,4,5".toList).m_fileName = "f.wav".toList ∧
      (ofString refDouble refInit "f.wav=a,1,2,3,4,5".toList).m_alias = "a".toList ∧
      (ofString refDouble refInit "f.wav=a,1,2,3,4,5".toList).m_left = Dec.ofInt 1 ∧
      (ofString refDouble refInit "f.wav=a,1,2,3,4,5".toList).m_consonant = Dec.ofInt 2 ∧
      (ofString refDouble refInit "f.wav=a,1,2,3,4,5".toList).m_right = Dec.ofInt 3 ∧
      (ofString refDouble refInit "f.wav=a,1,2,3,4,5".toList).m_preUtterance = Dec.ofInt 4 ∧
      (ofString refDouble refInit "f.wav=a,1,2,3,4,5".toList).m_overlap = Dec.ofInt 5 := by
  obtain ⟨h1, h2, h3, h4, h5, h6, h7⟩ :=
    ofString_valid_fields refDouble refInit "f.wav=a,1,2,3,4,5".toList (by decide)
  exact ⟨by decide, h1.trans (by decide), h2.trans (by decide), h3.trans (by decide),
    h4.trans (by decide), h5.trans (by decide), h6.trans (by decide), h7.trans (by decide)⟩

/-! ## Equality -/

/-- C7: `operator==` holds exactly when the file names and the aliases are
equal and the five numbers compare equal as doubles; `valid` and `error`
take no part, so changing them on either side never changes the outcome (an
entry equals its own copy marked invalid with an error whenever it equals
itself); `operator!=` is the negation of `operator==`. -/
theorem eq_iff_data_fields (q : QtDouble F) (a b : OtoEntry F) :
    (eq q a b = true ↔
        a.m_fileName = b.m_fileName ∧ a.m_alias = b.m_alias ∧
          q.eqD a.m_left b.m_left = true ∧ q.eqD a.m_consonant b.m_consonant = true ∧
          q.eqD a.m_right b.m_right = true ∧
          q.eqD a.m_preUtterance b.m_preUtterance = true ∧
          q.eqD a.m_overlap b.m_overlap = true) ∧
      (∀ (va vb : Bool) (ea eb : Option OtoEntryError),
        eq q { a with m_valid := va, m_error := ea } { b with m_valid := vb, m_error := eb }
          = eq q a b) ∧
      (∀ err : OtoEntryError,
        eq q { a with m_valid := true, m_error := none }
            { a with m_valid := false, m_error := some err } = eq q a a) ∧
      ne q a b = !(eq q a b) := by
  refine ⟨?_, ?_, ?_, rfl⟩
  · simp [eq, fileName, alias_, left, consonant, right, preUtterance, overlap, and_assoc]
  · intro va vb ea eb
    rfl
  · intro err
    rfl

/-! ## The record invariant -/

theorem runSetters_valid_error (e : OtoEntry F) (calls : List (Setter F)) :
    (runSetters e calls).m_valid = e.m_valid ∧ (runSetters e calls).m_error = e.m_error := by
  induction calls generalizing e with
  | nil => exact ⟨rfl, rfl⟩
  | cons c cs ih =>
    have h := ih (applySetter e c)
    simp only [runSetters, List.foldl_cons] at h ⊢
    rw [h.1, h.2]
    cases c <;> exact ⟨rfl, rfl⟩

theorem runSetters_fileName_ne_nil (e : OtoEntry F) (calls : List (Setter F))
    (he : e.m_fileName ≠ []) (hc : ∀ v, Setter.setFileName v ∈ calls → v ≠ []) :
    (runSetters e calls).m_fileName ≠ [] := by
  induction calls generalizing e with
  | nil => exact he
  | cons c cs ih =>
    simp only [runSetters, List.foldl_cons]
    apply ih
    · cases c with
      | setFileName v => exact hc v (List.mem_cons_self _ _)
      | setAlias v => exact he
      | setLeft v => exact he
      | setConsonant v => exact he
      | setRight v => exact he
      | setPreUtterance v => exact he
      | setOverlap v => exact he
    · intro v hv
      exact hc v (List.mem_cons_of_mem _ hv)

/-- A validly parsed entry still has the error of the initial member state,
and its file name is not empty. -/
theorem ofString_valid_keeps (q : QtDouble F) (init : OtoEntry F) (s : QString)
    (hv : (ofString q init s).m_valid = true) :
    (ofString q init s).m_error = init.m_error ∧ (ofString q init s).m_fileName ≠ [] := by
  by_cases hs : s = []
  · subst hs
    simp [ofString_nil, setError, setValid] at hv
  by_cases hm : '=' ∈ s
  swap
  · simp [ofString_no_separator q init hs hm, setError, setValid] at hv
  by_cases hh : s.head? = some '='
  · simp [ofString_empty_fileName q init hh, setError, setValid] at hv
  have hf : QStr.textBefore '=' s ≠ [] := by
    rw [Ne, QStr.textBefore_eq_nil_iff]
    tauto
  rw [ofString_fields q init hm hf] at hv ⊢
  generalize (fieldConv q s 1).2 = b1 at hv ⊢
  generalize (fieldConv q s 2).2 = b2 at hv ⊢
  generalize (fieldConv q s 3).2 = b3 at hv ⊢
  generalize (fieldConv q s 4).2 = b4 at hv ⊢
  generalize (fieldConv q s 5).2 = b5 at hv ⊢
  cases b1 <;> cases b2 <;> cases b3 <;> cases b4 <;> cases b5 <;>
    simp_all [firstFailed, convertError, setError, setValid]

/-- C8, as the code has it: for every entry created by the field constructor
or by parsing and then changed by any sequence of field setters, `valid`
implies that no error is recorded; it implies a non-empty file name when
neither the field constructor nor a `setFileName` call was given an empty
file name. -/
theorem valid_invariant (q : QtDouble F) (init : OtoEntry F) (hinit : init.m_error = none)
    (o : Origin F) (calls : List (Setter F))
    (hv : (runSetters (o.build q init) calls).m_valid = true) :
    (runSetters (o.build q init) calls).m_error = none ∧
      (o.namesFile → (∀ v, Setter.setFileName v ∈ calls → v ≠ []) →
        (runSetters (o.build q init) calls).m_fileName ≠ []) := by
  obtain ⟨h1, h2⟩ := runSetters_valid_error (o.build q init) calls
  rw [h1] at hv
  rw [h2]
  cases o with
  | fields f a l c r p o =>
    refine ⟨hinit, ?_⟩
    intro hn hc
    exact runSetters_fileName_ne_nil _ calls hn hc
  | line s =>
    obtain ⟨he, hf⟩ := ofString_valid_keeps q init s hv
    refine ⟨he.trans hinit, ?_⟩
    intro _ hc
    exact runSetters_fileName_ne_nil _ calls hf hc

/-- C8 as amended, evaluated with the reference routines: the line
`f.wav=a,1,2,3,4,5` followed by `setFileName("g.wav")` and `setLeft(7)`. -/
theorem valid_invariant_witness :
    refInit.m_error = none ∧
      (runSetters ((Origin.line "f.wav=a,1,2,3,4,5".toList).build refDouble refInit)
        [.setFileName "g.wav".toList, .setLeft (Dec.ofInt 7)]).m_valid = true ∧
      (runSetters ((Origin.line "f.wav=a,1,2,3,4,5".toList).build refDouble refInit)
        [.setFileName "g.wav".toList, .setLeft (Dec.ofInt 7)]).m_error = none ∧
      (runSetters ((Origin.line "f.wav=a,1,2,3,4,5".toList).build refDouble refInit)
        [.setFileName "g.wav".toList, .setLeft (Dec.ofInt 7)]).m_fileName ≠ [] := by
  have h := valid_invariant refDouble refInit rfl (Origin.line "f.wav=a,1,2,3,4,5".toList)
    [.setFileName "g.wav".toList, .setLeft (Dec.ofInt 7)] (by decide)
  refine ⟨rfl, by decide, h.1, h.2 trivial ?_⟩
  intro v hv
  simp only [List.mem_cons, Setter.setFileName.injEq, List.mem_singleton, reduceCtorEq,
    or_false, List.not_mem_nil] at hv
  subst hv
  decide

/-- C8 as stated fails: the field constructor given an empty file name
yields a valid entry whose file name is empty, and so does `setFileName("")`
on a validly parsed entry. -/
theorem valid_invariant_counterexample :
    (¬ ∀ (o : Origin Dec) (calls : List (Setter Dec)),
        (runSetters (o.build refDouble refInit) calls).m_valid = true →
          (runSetters (o.build refDouble refInit) calls).m_error = none ∧
            (runSetters (o.build refDouble refInit) calls).m_fileName ≠ []) ∧
      ((ofFields refInit [] "a".toList (Dec.ofInt 1) (Dec.ofInt 2) (Dec.ofInt 3) (Dec.ofInt 4)
          (Dec.ofInt 5)).m_valid = true ∧
        (ofFields refInit [] "a".toList (Dec.ofInt 1) (Dec.ofInt 2) (Dec.ofInt 3) (Dec.ofInt 4)
          (Dec.ofInt 5)).m_fileName = []) ∧
      ((runSetters (ofString refDouble refInit "f.wav=a,1,2,3,4,5".toList)
          [.setFileName []]).m_valid = true ∧
        (runSetters (ofString refDouble refInit "f.wav=a,1,2,3,4,5".toList)
          [.setFileName []]).m_fileName = []) := by
  refine ⟨?_, by decide, by decide⟩
  intro h
  have h1 := h (.fields [] "a".toList (Dec.ofInt 1) (Dec.ofInt 2) (Dec.ofInt 3) (Dec.ofInt 4)
    (Dec.ofInt 5)) [] (by decide)
  exact h1.2 (by decide)

/-! ## Serialisation -/

/-- C6 at a file name holding a place marker: for the entry with file name
`%1.wav`, alias `a` and the numbers 1 to 5, `toString` substitutes the left
value into the file name, shifts every number one field to the left and
leaves the marker `%7` in the text, instead of copying the file name
verbatim. -/
theorem toString_marker_in_fileName :
    toString refDouble (ofFields refInit "%1.wav".toList "a".toList (Dec.ofInt 1) (Dec.ofInt 2)
        (Dec.ofInt 3) (Dec.ofInt 4) (Dec.ofInt 5))
        = "1.000.wav=a,2.000,3.000,4.000,5.000,%7".toList ∧
      toString refDouble (ofFields refInit "%1.wav".toList "a".toList (Dec.ofInt 1) (Dec.ofInt 2)
        (Dec.ofInt 3) (Dec.ofInt 4) (Dec.ofInt 5))
        ≠ "%1.wav".toList ++ "=".toList ++ "a".toList ++ ",".toList
            ++ refDouble.fixed3 (Dec.ofInt 1) ++ ",".toList ++ refDouble.fixed3 (Dec.ofInt 2)
            ++ ",".toList ++ refDouble.fixed3 (Dec.ofInt 3) ++ ",".toList
            ++ refDouble.fixed3 (Dec.ofInt 4) ++ ",".toList ++ refDouble.fixed3 (Dec.ofInt 5) := by
  constructor <;> decide

/-- C5 at a file name holding a place marker: the line `%1.wav=a,1,2,3,4,5`
parses to a valid entry, its `toString` is
`1.000.wav=a,2.000,3.000,4.000,5.000,%7`, and parsing that text gives an
invalid entry (`OverlapConvertFailed`) that is not equal to the first one;
a second `toString` gives yet another text, so the round trip is not
idempotent either. -/
theorem roundtrip_marker_in_fileName :
    (ofString refDouble refInit "%1.wav=a,1,2,3,4,5".toList).m_valid = true ∧
      toString refDouble (ofString refDouble refInit "%1.wav=a,1,2,3,4,5".toList)
        = "1.000.wav=a,2.000,3.000,4.000,5.000,%7".toList ∧
      (ofString refDouble refInit
        (toString refDouble (ofString refDouble refInit "%1.wav=a,1,2,3,4,5".toList))).m_error
        = some .OverlapConvertFailed ∧
      eq refDouble
        (ofString refDouble refInit
          (toString refDouble (ofString refDouble refInit "%1.wav=a,1,2,3,4,5".toList)))
        (ofString refDouble refInit "%1.wav=a,1,2,3,4,5".toList) = false ∧
      toString refDouble
        (ofString refDouble refInit
          (toString refDouble (ofString refDouble refInit "%1.wav=a,1,2,3,4,5".toList)))
        = "1.000.wav=a,2.000,3.000,4.000,5.000,0.000".toList := by
  refine ⟨by decide, by decide, by decide, by decide, by decide⟩

theorem escapeNumbers_append {p : QString} (r : QString) (hp : '%' ∉ p) :
    QStr.escapeNumbers (p ++ r) = QStr.escapeNumbers r := by
  induction p with
  | nil => rfl
  | cons c cs ih =>
    have hc : c ≠ '%' := fun h => hp (h ▸ List.mem_cons_self _ _)
    have hcs : '%' ∉ cs := fun h => hp (List.mem_cons_of_mem _ h)
    simp [QStr.escapeNumbers, hc, ih hcs]

theorem replaceArgEscapes_append (m : Nat) (a la : QString) {p : QString} (r : QString)
    (hp : '%' ∉ p) :
    QStr.replaceArgEscapes m a la 0 (p ++ r) = p ++ QStr.replaceArgEscapes m a la 0 r := by
  induction p with
  | nil => rfl
  | cons c cs ih =>
    have hc : c ≠ '%' := fun h => hp (h ▸ List.mem_cons_self _ _)
    have hcs : '%' ∉ cs := fun h => hp (List.mem_cons_of_mem _ h)
    simp [QStr.replaceArgEscapes, hc, ih hcs]

/-- Text without a `%` in front of a string is copied by `arg`. -/
theorem arg_append {p : QString} (r a la : QString) (hp : '%' ∉ p) :
    QStr.arg (p ++ r) a la = p ++ QStr.arg r a la := by
  unfold QStr.arg
  rw [escapeNumbers_append r hp]
  cases QStr.lowest (QStr.escapeNumbers r) with
  | none => rfl
  | some m => exact replaceArgEscapes_append m a la r hp

theorem multiArg_template (f a : QString) :
    QStr.multiArg "%1=%2,%3,%4,%5,%6,%7".toList [f, a]
      = f ++ '=' :: (a ++ ",%3,%4,%5,%6,%7".toList) := by
  rfl

/-- When neither the file name, nor the alias, nor a rendered number holds a
`%`, `toString` is the plain concatenation
`fileName=alias,left,consonant,right,preUtterance,overlap`. -/
theorem toString_of_no_percent (q : QtDouble F) (e : OtoEntry F)
    (hf : '%' ∉ e.m_fileName) (ha : '%' ∉ e.m_alias) (hx : ∀ x, '%' ∉ q.fixed3 x) :
    toString q e =
      e.m_fileName ++ '=' :: (e.m_alias ++ ',' :: (q.fixed3 e.m_left ++ ',' ::
        (q.fixed3 e.m_consonant ++ ',' :: (q.fixed3 e.m_right ++ ',' ::
          (q.fixed3 e.m_preUtterance ++ ',' :: q.fixed3 e.m_overlap))))) := by
  have step3 : ∀ (p x lx : QString), '%' ∉ p →
      QStr.arg (p ++ "%3,%4,%5,%6,%7".toList) x lx = p ++ (x ++ ",%4,%5,%6,%7".toList) := by
    intro p x lx hp
    rw [arg_append _ _ _ hp]
    rfl
  have step4 : ∀ (p x lx : QString), '%' ∉ p →
      QStr.arg (p ++ "%4,%5,%6,%7".toList) x lx = p ++ (x ++ ",%5,%6,%7".toList) := by
    intro p x lx hp
    rw [arg_append _ _ _ hp]
    rfl
  have step5 : ∀ (p x lx : QString), '%' ∉ p →
      QStr.arg (p ++ "%5,%6,%7".toList) x lx = p ++ (x ++ ",%6,%7".toList) := by
    intro p x lx hp
    rw [arg_append _ _ _ hp]
    rfl
  have step6 : ∀ (p x lx : QString), '%' ∉ p →
      QStr.arg (p ++ "%6,%7".toList) x lx = p ++ (x ++ ",%7".toList) := by
    intro p x lx hp
    rw [arg_append _ _ _ hp]
    rfl
  have step7 : ∀ (p x lx : QString), '%' ∉ p →
      QStr.arg (p ++ "%7".toList) x lx = p ++ x := by
    intro p x lx hp
    rw [arg_append _ _ _ hp]
    simp [QStr.arg, QStr.escapeNumbers, QStr.escapeAt, QStr.escapeDigits, QStr.digitValue,
      QStr.lowest, QStr.replaceArgEscapes]
  have hl := hx e.m_left
  have hc := hx e.m_consonant
  have hr := hx e.m_right
  have hp := hx e.m_preUtterance
  unfold toString
  rw [multiArg_template]
  have e3 : e.m_fileName ++ '=' :: (e.m_alias ++ ",%3,%4,%5,%6,%7".toList)
      = (e.m_fileName ++ '=' :: (e.m_alias ++ [','])) ++ "%3,%4,%5,%6,%7".toList := by simp
  have n3 : '%' ∉ e.m_fileName ++ '=' :: (e.m_alias ++ [',']) := by simp [hf, ha]
  simp only [e3]
  rw [step3 _ _ _ n3]
  have e4 : (e.m_fileName ++ '=' :: (e.m_alias ++ [','])) ++ (q.fixed3 e.m_left ++ ",%4,%5,%6,%7".toList)
      = (e.m_fileName ++ '=' :: (e.m_alias ++ ',' :: (q.fixed3 e.m_left ++ [','])))
        ++ "%4,%5,%6,%7".toList := by simp
  have n4 : '%' ∉ e.m_fileName ++ '=' :: (e.m_alias ++ ',' :: (q.fixed3 e.m_left ++ [','])) := by
    simp [hf, ha, hl]
  rw [e4, step4 _ _ _ n4]
  have e5 : (e.m_fileName ++ '=' :: (e.m_alias ++ ',' :: (q.fixed3 e.m_left ++ [','])))
        ++ (q.fixed3 e.m_consonant ++ ",%5,%6,%7".toList)
      = (e.m_fileName ++ '=' :: (e.m_alias ++ ',' :: (q.fixed3 e.m_left ++ ',' ::
          (q.fixed3 e.m_consonant ++ [',']))))
        ++ "%5,%6,%7".toList := by simp
  have n5 : '%' ∉ e.m_fileName ++ '=' :: (e.m_alias ++ ',' :: (q.fixed3 e.m_left ++ ',' ::
      (q.fixed3 e.m_consonant ++ [',']))) := by
    simp [hf, ha, hl, hc]
  rw [e5, step5 _ _ _ n5]
  have e6 : (e.m_fileName ++ '=' :: (e.m_alias ++ ',' :: (q.fixed3 e.m_left ++ ',' ::
          (q.fixed3 e.m_consonant ++ [',']))))
        ++ (q.fixed3 e.m_right ++ ",%6,%7".toList)
      = (e.m_fileName ++ '=' :: (e.m_alias ++ ',' :: (q.fixed3 e.m_left ++ ',' ::
          (q.fixed3 e.m_consonant ++ ',' :: (q.fixed3 e.m_right ++ [','])))))
        ++ "%6,%7".toList := by simp
  have n6 : '%' ∉ e.m_fileName ++ '=' :: (e.m_alias ++ ',' :: (q.fixed3 e.m_left ++ ',' ::
      (q.fixed3 e.m_consonant ++ ',' :: (q.fixed3 e.m_right ++ [','])))) := by
    simp [hf, ha, hl, hc, hr]
  rw [e6, step6 _ _ _ n6]
  have e7 : (e.m_fileName ++ '=' :: (e.m_alias ++ ',' :: (q.fixed3 e.m_left ++ ',' ::
          (q.fixed3 e.m_consonant ++ ',' :: (q.fixed3 e.m_right ++ [','])))))
        ++ (q.fixed3 e.m_preUtterance ++ ",%7".toList)
      = (e.m_fileName ++ '=' :: (e.m_alias ++ ',' :: (q.fixed3 e.m_left ++ ',' ::
          (q.fixed3 e.m_consonant ++ ',' :: (q.fixed3 e.m_right ++ ',' ::
            (q.fixed3 e.m_preUtterance ++ [',']))))))
        ++ "%7".toList := by simp
  have n7 : '%' ∉ e.m_fileName ++ '=' :: (e.m_alias ++ ',' :: (q.fixed3 e.m_left ++ ',' ::
      (q.fixed3 e.m_consonant ++ ',' :: (q.fixed3 e.m_right ++ ',' ::
        (q.fixed3 e.m_preUtterance ++ [','])))))  := by
    simp [hf, ha, hl, hc, hr, hp]
  rw [e7, step7 _ _ _ n7]
  simp

end OtoEntry

/-! ## The pitch range -/

namespace OtoEntryFunctions

theorem indexOfCIFrom_eq_neg_one_iff (c : Char) (s : QString) (i : Int) (hi : 0 ≤ i) :
    QStr.indexOfCIFrom c s i = -1 ↔ ∀ x ∈ s, x.toLower ≠ c.toLower := by
  induction s generalizing i with
  | nil => simp [QStr.indexOfCIFrom]
  | cons x xs ih =>
    by_cases hx : x.toLower = c.toLower
    · simp only [QStr.indexOfCIFrom, hx, if_true, List.mem_cons, forall_eq_or_imp, ne_eq,
        not_true_eq_false, false_and, iff_false]
      omega
    · simp [QStr.indexOfCIFrom, hx, ih (i + 1) (by omega)]

theorem indexOfCI_order_eq_neg_one_iff (cs : CharacterCase) (c : Char) :
    QStr.indexOfCI (PitchNameOrder cs) c = -1 ↔ c.toLower ∉ "cdefgab".toList := by
  unfold QStr.indexOfCI
  rw [indexOfCIFrom_eq_neg_one_iff _ _ _ (le_refl 0)]
  have hC : 'C'.toLower = 'c' := by decide
  have hD : 'D'.toLower = 'd' := by decide
  have hE : 'E'.toLower = 'e' := by decide
  have hF : 'F'.toLower = 'f' := by decide
  have hG : 'G'.toLower = 'g' := by decide
  have hA : 'A'.toLower = 'a' := by decide
  have hB : 'B'.toLower = 'b' := by decide
  have hc : 'c'.toLower = 'c' := by decide
  have hd : 'd'.toLower = 'd' := by decide
  have he : 'e'.toLower = 'e' := by decide
  have hf : 'f'.toLower = 'f' := by decide
  have hg : 'g'.toLower = 'g' := by decide
  have ha : 'a'.toLower = 'a' := by decide
  have hb : 'b'.toLower = 'b' := by decide
  cases cs <;>
    simp [PitchNameOrder, hC, hD, hE, hF, hG, hA, hB, hc, hd, he, hf, hg, ha, hb, eq_comm]

/-- C10: when either pitch string is malformed (empty, or not starting with
one of the seven letters in either case, or with a remainder that does not
convert to an `int`), `getPitchStringRange` returns the empty list, whatever
the other pitch string and the letter case are.  Given that neither the empty
string nor `#4` converts to an `int`, this covers the pitch strings `C` and
`C#4`. -/
theorem getPitchStringRange_malformed (q : QtInt) (fuel : Nat) (bottomPitch topPitch : QString)
    (cs : CharacterCase) :
    (malformedPitch q bottomPitch ∨ malformedPitch q topPitch →
        getPitchStringRange q fuel bottomPitch topPitch cs = some []) ∧
      ((q.toInt []).2 = false →
        getPitchStringRange q fuel "C".toList topPitch cs = some [] ∧
          getPitchStringRange q fuel bottomPitch "C".toList cs = some []) ∧
      ((q.toInt "#4".toList).2 = false →
        getPitchStringRange q fuel "C#4".toList topPitch cs = some [] ∧
          getPitchStringRange q fuel bottomPitch "C#4".toList cs = some []) := by
  have main : ∀ b t : QString, malformedPitch q b ∨ malformedPitch q t →
      getPitchStringRange q fuel b t cs = some [] := by
    intro b t h
    cases b with
    | nil => rfl
    | cons b0 br =>
      cases t with
      | nil => rfl
      | cons t0 tr =>
        simp only [malformedPitch] at h
        simp only [getPitchStringRange]
        by_cases hidx : QStr.indexOfCI (PitchNameOrder cs) b0 = -1 ∨
            QStr.indexOfCI (PitchNameOrder cs) t0 = -1
        · rw [if_pos hidx]
        · rw [if_neg hidx]
          rw [indexOfCI_order_eq_neg_one_iff, indexOfCI_order_eq_neg_one_iff] at hidx
          have hconv : (q.toInt br).2 = false ∨ (q.toInt tr).2 = false := by tauto
          have : (!((q.toInt br).2 && (q.toInt tr).2)) = true := by
            rcases hconv with h1 | h1 <;> simp [h1]
          rw [if_pos this]
  refine ⟨main _ _, ?_, ?_⟩
  · intro h
    exact ⟨main _ _ (Or.inl (Or.inr h)), main _ _ (Or.inr (Or.inr h))⟩
  · intro h
    exact ⟨main _ _ (Or.inl (Or.inr h)), main _ _ (Or.inr (Or.inr h))⟩

/-- C10, evaluated with the reference routines: `C#4` as bottom pitch, `C5`
as top pitch. -/
theorem getPitchStringRange_malformed_witness :
    (refInt.toInt "#4".toList).2 = false ∧
      getPitchStringRange refInt 5 "C#4".toList "C5".toList .Upper = some [] ∧
      getPitchStringRange refInt 5 "C3".toList "C#4".toList .Upper = some [] :=
  ⟨by decide,
    (getPitchStringRange_malformed refInt 5 "C3".toList "C5".toList .Upper).2.2 (by decide)⟩

theorem wrap32_le (x : Int) : wrap32 x ≤ 2147483647 := by
  unfold wrap32
  omega

theorem wrap32_of_range {x : Int} (h1 : -2147483648 ≤ x) (h2 : x ≤ 2147483647) :
    wrap32 x = x := by
  unfold wrap32
  omega

/-- With the top octave at the largest `int`, the loop condition
`currentOctave <= topOctave` holds at every iteration: the octave loop does
not exit, whatever the fuel. -/
theorem octaveLoop_top_max (q : QtInt) (order : QString) (bn tn : Nat) (bo : Int)
    (fuel : Nat) (cur : Int) (acc : List QString) (h : cur ≤ 2147483647) :
    octaveLoop q order bn tn bo 2147483647 fuel cur acc = none := by
  induction fuel generalizing cur acc with
  | zero => rfl
  | succ n ih =>
    simp only [octaveLoop, if_pos h]
    exact ih _ _ (wrap32_le _)

/-- For every pair of well-formed pitch strings whose top octave is
2147483647, `getPitchStringRange` does not return. -/
theorem getPitchStringRange_top_max (q : QtInt) (fuel : Nat) (b0 t0 : Char) (br tr : QString)
    (cs : CharacterCase) (hb : ¬ malformedPitch q (b0 :: br)) (ht : ¬ malformedPitch q (t0 :: tr))
    (htop : (q.toInt tr).1 = 2147483647) :
    getPitchStringRange q fuel (b0 :: br) (t0 :: tr) cs = none := by
  simp only [malformedPitch, not_or, not_not, Bool.not_eq_false] at hb ht
  have hidx : ¬ (QStr.indexOfCI (PitchNameOrder cs) b0 = -1 ∨
      QStr.indexOfCI (PitchNameOrder cs) t0 = -1) := by
    rw [indexOfCI_order_eq_neg_one_iff, indexOfCI_order_eq_neg_one_iff]
    tauto
  simp only [getPitchStringRange, if_neg hidx, hb.2, ht.2, Bool.and_self, Bool.not_true,
    Bool.false_eq_true, if_false, htop]
  exact octaveLoop_top_max _ _ _ _ _ _ _ _ (q.toInt_range br).2

/-- C9 at the top octave 2147483647: for the pitch strings `C2147483647` and
`C2147483647`, whose range would be the single string `C2147483647`, the
octave counter wraps round after the first iteration and the loop never
exits; no amount of fuel yields a result. -/
theorem getPitchStringRange_top_max_diverges :
    ∀ fuel : Nat,
      getPitchStringRange refInt fuel "C2147483647".toList "C2147483647".toList .Upper = none := by
  intro fuel
  exact getPitchStringRange_top_max refInt fuel 'C' 'C' "2147483647".toList "2147483647".toList
    .Upper (by unfold malformedPitch; decide) (by unfold malformedPitch; decide) (by decide)

/-! ### The range below the largest octave -/

theorem indexOfCI_order_of_letter (cs : CharacterCase) (c : Char) (l : Nat)
    (h : "cdefgab".toList.get? l = some c.toLower) :
    QStr.indexOfCI (PitchNameOrder cs) c = (l : Int) := by
  have hC : 'C'.toLower = 'c' := by decide
  have hD : 'D'.toLower = 'd' := by decide
  have hE : 'E'.toLower = 'e' := by decide
  have hF : 'F'.toLower = 'f' := by decide
  have hG : 'G'.toLower = 'g' := by decide
  have hA : 'A'.toLower = 'a' := by decide
  have hB : 'B'.toLower = 'b' := by decide
  have hc : 'c'.toLower = 'c' := by decide
  have hd : 'd'.toLower = 'd' := by decide
  have he : 'e'.toLower = 'e' := by decide
  have hf : 'f'.toLower = 'f' := by decide
  have hg : 'g'.toLower = 'g' := by decide
  have ha : 'a'.toLower = 'a' := by decide
  have hb : 'b'.toLower = 'b' := by decide
  rcases l with _ | _ | _ | _ | _ | _ | _ | n <;>
    simp only [String.toList, List.get?, Option.some.injEq, reduceCtorEq] at h <;>
    cases cs <;>
    simp [QStr.indexOfCI, QStr.indexOfCIFrom, PitchNameOrder, ← h, hC, hD, hE, hF, hG, hA, hB,
      hc, hd, he, hf, hg, ha, hb]

theorem letter_index_lt {c : Char} {l : Nat}
    (h : "cdefgab".toList.get? l = some c) : l < 7 := by
  rcases l with _ | _ | _ | _ | _ | _ | _ | n
  all_goals first
    | omega
    | simp [String.toList, List.get?] at h

theorem order_getD_ne_percent (cs : CharacterCase) (l : Nat) :
    (PitchNameOrder cs).getD l ' ' ≠ '%' := by
  rcases l with _ | _ | _ | _ | _ | _ | _ | n <;> cases cs <;> simp [PitchNameOrder]

theorem pitchString_eq (q : QtInt) (cs : CharacterCase) (l : Nat) (o : Int) :
    pitchString q (PitchNameOrder cs) l o = renderPitch cs (o, l) := by
  have hne := order_getD_ne_percent cs l
  unfold pitchString renderPitch
  have h1 : ∀ c : Char, QStr.arg "%1%2".toList [c] [c] = [c, '%', '2'] := fun c => rfl
  simp only [h1]
  simp [QStr.arg, QStr.escapeNumbers, hne, QStr.escapeAt, QStr.escapeDigits, QStr.digitValue,
    QStr.lowest, QStr.replaceArgEscapes]

theorem pitchNameLoop_eq (q : QtInt) (cs : CharacterCase) (o : Int) (count start : Nat) :
    pitchNameLoop q (PitchNameOrder cs) o count start
      = ((List.range' start count).map fun l => (o, l)).map (renderPitch cs) := by
  induction count generalizing start with
  | zero => rfl
  | succ n ih =>
    simp only [pitchNameLoop, List.range'_succ, List.map_cons, pitchString_eq, ih]

theorem order_length (cs : CharacterCase) : (PitchNameOrder cs).length = 7 := by
  cases cs <;> rfl

theorem octaveLoop_eq (q : QtInt) (cs : CharacterCase) (bl tl : Nat) (bo tp : Int)
    (hbo : -2147483648 ≤ bo) (htp : tp < 2147483647) (n : Nat) :
    ∀ (fuel : Nat) (cur : Int) (acc : List QString), bo ≤ cur → cur + n = tp + 1 → n < fuel →
      octaveLoop q (PitchNameOrder cs) bl tl bo tp fuel cur acc
        = some (acc ++ ((List.range n).flatMap fun k =>
            octaveRow bl tl bo tp (cur + (k : Int))).map (renderPitch cs)) := by
  induction n with
  | zero =>
    intro fuel cur acc _ hcur hfuel
    obtain ⟨f, rfl⟩ : ∃ f, fuel = f + 1 := ⟨fuel - 1, by omega⟩
    have : ¬ cur ≤ tp := by omega
    simp [octaveLoop, this]
  | succ n ih =>
    intro fuel cur acc hlo hcur hfuel
    obtain ⟨f, rfl⟩ : ∃ f, fuel = f + 1 := ⟨fuel - 1, by omega⟩
    have hle : cur ≤ tp := by omega
    have hw : wrap32 (cur + 1) = cur + 1 := wrap32_of_range (by omega) (by omega)
    simp only [octaveLoop, if_pos hle, hw, order_length]
    rw [ih f (cur + 1) _ (by omega) (by push_cast at hcur ⊢; omega) (by omega)]
    rw [pitchNameLoop_eq, List.range_succ_eq_map]
    simp only [List.flatMap_cons, List.flatMap_map, List.map_append, List.append_assoc,
      Nat.cast_zero, add_zero, octaveRow, Function.comp_def, Nat.cast_succ]
    have hk : ∀ k : Nat, cur + ((k : Int) + 1) = cur + 1 + (k : Int) := fun k => by ring
    simp only [hk]

theorem digitValue_digitChar (d : Nat) (h : d < 10) :
    QStr.digitValue (Nat.digitChar d) = some d := by
  interval_cases d <;> decide

theorem natOfDigits_append (l1 l2 : QString) (acc : Nat) :
    natOfDigits (l1 ++ l2) acc = (natOfDigits l1 acc).bind fun v => natOfDigits l2 v := by
  induction l1 generalizing acc with
  | nil => rfl
  | cons c cs ih =>
    simp only [List.cons_append, natOfDigits]
    cases QStr.digitValue c with
    | none => rfl
    | some d => exact ih _

theorem toDigitsCore_append (fuel n : Nat) (ds : List Char) :
    Nat.toDigitsCore 10 fuel n ds = Nat.toDigitsCore 10 fuel n [] ++ ds := by
  induction fuel generalizing n ds with
  | zero => rfl
  | succ f ih =>
    simp only [Nat.toDigitsCore]
    split_ifs
    · rfl
    · rw [ih (n / 10) (_ :: ds), ih (n / 10) [_]]
      simp

theorem natOfDigits_toDigitsCore (fuel n : Nat) (h : n < fuel) :
    natOfDigits (Nat.toDigitsCore 10 fuel n []) 0 = some n := by
  induction fuel generalizing n with
  | zero => omega
  | succ f ih =>
    simp only [Nat.toDigitsCore]
    split_ifs with h0
    · have hn : n % 10 = n := by omega
      have hd := digitValue_digitChar n (by omega)
      simp [natOfDigits, hn, hd]
    · rw [toDigitsCore_append, natOfDigits_append, ih (n / 10) (by omega)]
      simp only [Option.some_bind, natOfDigits,
        digitValue_digitChar (n % 10) (Nat.mod_lt _ (by omega))]
      congr 1
      omega

theorem natOfDigits_toDigits (n : Nat) : natOfDigits (Nat.toDigits 10 n) 0 = some n :=
  natOfDigits_toDigitsCore (n + 1) n (by omega)

/-- The decimal text determines the integer. -/
theorem decimal_injective {a b : Int} (h : QStr.decimal a = QStr.decimal b) : a = b := by
  have hminus : ∀ (l : QString), natOfDigits ('-' :: l) 0 = none := by
    intro l
    simp [natOfDigits, QStr.digitValue]
  have key : ∀ {m n : Nat}, Nat.toDigits 10 m = Nat.toDigits 10 n → m = n := by
    intro m n hmn
    have := natOfDigits_toDigits m
    rw [hmn, natOfDigits_toDigits] at this
    exact (Option.some.inj this).symm
  unfold QStr.decimal at h
  by_cases ha : a < 0 <;> by_cases hb : b < 0
  · rw [if_pos ha, if_pos hb] at h
    have := key (List.cons.inj h).2
    omega
  · rw [if_pos ha, if_neg hb] at h
    have h1 := natOfDigits_toDigits b.natAbs
    rw [← h, hminus] at h1
    exact absurd h1 (by simp)
  · rw [if_neg ha, if_pos hb] at h
    have h1 := natOfDigits_toDigits a.natAbs
    rw [h, hminus] at h1
    exact absurd h1 (by simp)
  · rw [if_neg ha, if_neg hb] at h
    have := key h
    omega

theorem order_getD_injective (cs : CharacterCase) {l l' : Nat} (hl : l < 7) (hl' : l' < 7)
    (h : (PitchNameOrder cs).getD l ' ' = (PitchNameOrder cs).getD l' ' ') : l = l' := by
  cases cs <;> interval_cases l <;> interval_cases l' <;>
    first
      | rfl
      | (exfalso; revert h; decide)

theorem renderPitch_injective (cs : CharacterCase) {p p' : Int × Nat} (hp : p.2 < 7)
    (hp' : p'.2 < 7) (h : renderPitch cs p = renderPitch cs p') : p = p' := by
  unfold renderPitch at h
  obtain ⟨h1, h2⟩ := List.cons.inj h
  exact Prod.ext (decimal_injective h2) (order_getD_injective cs hp hp' h1)

theorem mem_octaveRow {bl tl : Nat} {bo tp o : Int} {p : Int × Nat} :
    p ∈ octaveRow bl tl bo tp o ↔
      p.1 = o ∧ (if o = bo then bl else 0) ≤ p.2 ∧ p.2 ≤ (if o = tp then tl else 6) := by
  unfold octaveRow
  simp only [List.mem_map, List.mem_range'_1]
  constructor
  · rintro ⟨l, ⟨h1, h2⟩, rfl⟩
    exact ⟨rfl, h1, by omega⟩
  · rintro ⟨h1, h2, h3⟩
    exact ⟨p.2, ⟨h2, by omega⟩, by rw [← h1]⟩

/-- The pairs of the range are exactly the pairs with a letter index below 7
that lie between the two ends in the order (octave, letter). -/
theorem mem_pitchPairs {tl : Nat} (htl : tl < 7) (bo : Int) (bl : Nat) (tp : Int)
    (p : Int × Nat) :
    p ∈ pitchPairs bo bl tp tl ↔ p.2 < 7 ∧ pitchLe (bo, bl) p ∧ pitchLe p (tp, tl) := by
  unfold pitchPairs pitchLe
  simp only [List.mem_flatMap, List.mem_range, mem_octaveRow]
  constructor
  · rintro ⟨k, hk, h1, h2, h3⟩
    split_ifs at h2 h3 <;> omega
  · rintro ⟨h7, h1, h2⟩
    refine ⟨(p.1 - bo).toNat, by omega, by omega, ?_, ?_⟩
    · split_ifs <;> omega
    · split_ifs <;> omega

/-- The pairs of the range are listed in strictly ascending order. -/
theorem pitchPairs_sorted (bl tl : Nat) (bo tp : Int) :
    (pitchPairs bo bl tp tl).Pairwise pitchLt := by
  unfold pitchPairs
  rw [List.pairwise_flatMap]
  constructor
  · intro k _
    unfold octaveRow
    rw [List.pairwise_map]
    refine (List.pairwise_lt_range' _ _).imp ?_
    intro a b hab
    exact Or.inr ⟨rfl, hab⟩
  · refine (List.pairwise_lt_range _).imp ?_
    intro a b hab x hx y hy
    rw [mem_octaveRow] at hx hy
    left
    omega

theorem pitchPairs_render_nodup (cs : CharacterCase) {tl : Nat} (htl : tl < 7)
    (bo : Int) (bl : Nat) (tp : Int) :
    ((pitchPairs bo bl tp tl).map (renderPitch cs)).Nodup := by
  have hnd : (pitchPairs bo bl tp tl).Nodup := by
    refine (pitchPairs_sorted bl tl bo tp).imp ?_
    intro a b hab heq
    subst heq
    unfold pitchLt at hab
    omega
  refine List.Nodup.map_on ?_ hnd
  intro x hx y hy hxy
  exact renderPitch_injective cs ((mem_pitchPairs htl bo bl tp x).1 hx).1
    ((mem_pitchPairs htl bo bl tp y).1 hy).1 hxy

/-- Below the largest octave the range is as specified: for pitch strings
whose first characters are, case-insensitively, the letters at indices `bl`
and `tl` of the alphabet and whose remainders convert to the octaves `bo` and
`tp < 2147483647`, the function returns, as soon as the fuel exceeds the
number of octaves, the pitch strings of the pairs of `pitchPairs`; these are
exactly the pairs (octave, letter index) between `(bo, bl)` and `(tp, tl)`,
in strictly ascending order, and their pitch strings are pairwise distinct. -/
theorem getPitchStringRange_below_max (q : QtInt) (cs : CharacterCase) (b0 t0 : Char)
    (br tr : QString) (bl tl : Nat)
    (hbl : "cdefgab".toList.get? bl = some b0.toLower)
    (htl : "cdefgab".toList.get? tl = some t0.toLower)
    (hbo : (q.toInt br).2 = true) (htp : (q.toInt tr).2 = true)
    (hmax : (q.toInt tr).1 < 2147483647) :
    (∀ fuel, ((q.toInt tr).1 + 1 - (q.toInt br).1).toNat < fuel →
        getPitchStringRange q fuel (b0 :: br) (t0 :: tr) cs
          = some ((pitchPairs (q.toInt br).1 bl (q.toInt tr).1 tl).map (renderPitch cs))) ∧
      (∀ p, p ∈ pitchPairs (q.toInt br).1 bl (q.toInt tr).1 tl ↔
        p.2 < 7 ∧ pitchLe ((q.toInt br).1, bl) p ∧ pitchLe p ((q.toInt tr).1, tl)) ∧
      (pitchPairs (q.toInt br).1 bl (q.toInt tr).1 tl).Pairwise pitchLt ∧
      ((pitchPairs (q.toInt br).1 bl (q.toInt tr).1 tl).map (renderPitch cs)).Nodup := by
  have htl7 := letter_index_lt htl
  refine ⟨?_, mem_pitchPairs htl7 _ _ _, pitchPairs_sorted _ _ _ _,
    pitchPairs_render_nodup cs htl7 _ _ _⟩
  intro fuel hfuel
  have hib := indexOfCI_order_of_letter cs b0 bl hbl
  have hit := indexOfCI_order_of_letter cs t0 tl htl
  have hidx : ¬ ((bl : Int) = -1 ∨ (tl : Int) = -1) := by omega
  simp only [getPitchStringRange, hib, hit, if_neg hidx, hbo, htp, Bool.and_self, Bool.not_true,
    Bool.false_eq_true, if_false, Int.toNat_ofNat]
  by_cases hle : (q.toInt br).1 ≤ (q.toInt tr).1 + 1
  · rw [octaveLoop_eq q cs bl tl _ _ (q.toInt_range br).1 hmax
      ((q.toInt tr).1 + 1 - (q.toInt br).1).toNat fuel _ [] (le_refl _) (by omega) hfuel]
    simp [pitchPairs]
  · obtain ⟨f, rfl⟩ : ∃ f, fuel = f + 1 := ⟨fuel - 1, by omega⟩
    have hn : ((q.toInt tr).1 + 1 - (q.toInt br).1).toNat = 0 := by omega
    have hgt : ¬ (q.toInt br).1 ≤ (q.toInt tr).1 := by omega
    simp [octaveLoop, hgt, pitchPairs, hn]

/-- The range below the largest octave, evaluated with the reference
routines: `("F4", "D5", Upper)` gives `F4 G4 A4 B4 C5 D5`. -/
theorem getPitchStringRange_below_max_witness :
    getPitchStringRange refInt 3 "F4".toList "D5".toList .Upper
      = some ["F4".toList, "G4".toList, "A4".toList, "B4".toList, "C5".toList, "D5".toList] :=
  ((getPitchStringRange_below_max refInt .Upper 'F' 'D' "4".toList "5".toList 3 1
    (by decide) (by decide) (by decide) (by decide) (by decide)).1 3 (by decide)).trans
    (by decide)

end OtoEntryFunctions

/-! ## The round trip on lines without a place marker -/

namespace QStr

theorem textBefore_append_cons {c : Char} {p : QString} (r : QString) (h : c ∉ p) :
    textBefore c (p ++ c :: r) = p := by
  induction p with
  | nil => simp [textBefore, List.takeWhile]
  | cons x xs ih =>
    have hx : (x != c) = true := by
      have : x ≠ c := fun e => h (e ▸ List.mem_cons_self _ _)
      simpa using this
    have hxs : c ∉ xs := fun e => h (List.mem_cons_of_mem _ e)
    have := ih hxs
    unfold textBefore at this ⊢
    simp [List.takeWhile, hx, this]

theorem textAfter_append_cons {c : Char} {p : QString} (r : QString) (h : c ∉ p) :
    textAfter c (p ++ c :: r) = r := by
  induction p with
  | nil => simp [textAfter, List.dropWhile]
  | cons x xs ih =>
    have hx : (x != c) = true := by
      have : x ≠ c := fun e => h (e ▸ List.mem_cons_self _ _)
      simpa using this
    have hxs : c ∉ xs := fun e => h (List.mem_cons_of_mem _ e)
    have := ih hxs
    unfold textAfter at this ⊢
    simp only [List.cons_append, List.dropWhile, hx]
    exact this

theorem not_mem_textBefore (c : Char) (s : QString) : c ∉ textBefore c s := by
  unfold textBefore
  intro h
  have := List.mem_takeWhile_imp h
  simp at this

theorem split_append_cons {sep : Char} {p : QString} (r : QString) (h : sep ∉ p) :
    split sep (p ++ sep :: r) = p :: split sep r := by
  induction p with
  | nil => simp [split]
  | cons x xs ih =>
    have hx : x ≠ sep := fun e => h (e ▸ List.mem_cons_self _ _)
    have hxs : sep ∉ xs := fun e => h (List.mem_cons_of_mem _ e)
    simp [split, hx, ih hxs]

theorem split_of_not_mem {sep : Char} {p : QString} (h : sep ∉ p) : split sep p = [p] := by
  induction p with
  | nil => rfl
  | cons x xs ih =>
    have hx : x ≠ sep := fun e => h (e ▸ List.mem_cons_self _ _)
    have hxs : sep ∉ xs := fun e => h (List.mem_cons_of_mem _ e)
    simp [split, hx, ih hxs]

end QStr

namespace OtoEntry

variable {F : Type}

/-- The record a valid parse builds. -/
theorem ofString_valid_record (q : QtDouble F) (init : OtoEntry F) (s : QString)
    (hv : (ofString q init s).m_valid = true) :
    ofString q init s =
      { m_fileName := QStr.textBefore '=' s
        m_alias := QStr.textBefore ',' (QStr.textAfter '=' s)
        m_left := (fieldConv q s 1).1
        m_consonant := (fieldConv q s 2).1
        m_right := (fieldConv q s 3).1
        m_preUtterance := (fieldConv q s 4).1
        m_overlap := (fieldConv q s 5).1
        m_error := init.m_error
        m_valid := true } := by
  by_cases hs : s = []
  · subst hs
    simp [ofString_nil, setError, setValid] at hv
  by_cases hm : '=' ∈ s
  swap
  · simp [ofString_no_separator q init hs hm, setError, setValid] at hv
  by_cases hh : s.head? = some '='
  · simp [ofString_empty_fileName q init hh, setError, setValid] at hv
  have hf : QStr.textBefore '=' s ≠ [] := by
    rw [Ne, QStr.textBefore_eq_nil_iff]
    tauto
  rw [ofString_fields q init hm hf] at hv ⊢
  generalize (fieldConv q s 1).2 = b1 at hv ⊢
  generalize (fieldConv q s 2).2 = b2 at hv ⊢
  generalize (fieldConv q s 3).2 = b3 at hv ⊢
  generalize (fieldConv q s 4).2 = b4 at hv ⊢
  generalize (fieldConv q s 5).2 = b5 at hv ⊢
  cases b1 <;> cases b2 <;> cases b3 <;> cases b4 <;> cases b5 <;>
    simp_all [firstFailed, convertError, setError, setValid]

/-- Parsing the plain concatenation `f=a,x1,x2,x3,x4,x5` when `f` is not
empty and holds no `=`, `a` holds no `,`, and each number text holds no `,`
and converts. -/
theorem ofString_concat (q : QtDouble F) (init : OtoEntry F) (f a x1 x2 x3 x4 x5 : QString)
    (v1 v2 v3 v4 v5 : F) (hf0 : f ≠ []) (hf : '=' ∉ f) (ha : ',' ∉ a)
    (h1 : ',' ∉ x1) (h2 : ',' ∉ x2) (h3 : ',' ∉ x3) (h4 : ',' ∉ x4) (h5 : ',' ∉ x5)
    (c1 : q.toDouble x1 = (v1, true)) (c2 : q.toDouble x2 = (v2, true))
    (c3 : q.toDouble x3 = (v3, true)) (c4 : q.toDouble x4 = (v4, true))
    (c5 : q.toDouble x5 = (v5, true)) :
    ofString q init
        (f ++ '=' :: (a ++ ',' :: (x1 ++ ',' :: (x2 ++ ',' :: (x3 ++ ',' :: (x4 ++ ',' :: x5))))))
      = { m_fileName := f, m_alias := a, m_left := v1, m_consonant := v2, m_right := v3,
          m_preUtterance := v4, m_overlap := v5, m_error := init.m_error, m_valid := true } := by
  have hm : '=' ∈ f ++ '=' ::
      (a ++ ',' :: (x1 ++ ',' :: (x2 ++ ',' :: (x3 ++ ',' :: (x4 ++ ',' :: x5))))) := by simp
  have hb := QStr.textBefore_append_cons
    (a ++ ',' :: (x1 ++ ',' :: (x2 ++ ',' :: (x3 ++ ',' :: (x4 ++ ',' :: x5))))) hf
  have haft := QStr.textAfter_append_cons
    (a ++ ',' :: (x1 ++ ',' :: (x2 ++ ',' :: (x3 ++ ',' :: (x4 ++ ',' :: x5))))) hf
  have hsp : QStr.split ','
      (a ++ ',' :: (x1 ++ ',' :: (x2 ++ ',' :: (x3 ++ ',' :: (x4 ++ ',' :: x5)))))
      = [a, x1, x2, x3, x4, x5] := by
    rw [QStr.split_append_cons _ ha, QStr.split_append_cons _ h1, QStr.split_append_cons _ h2,
      QStr.split_append_cons _ h3, QStr.split_append_cons _ h4, QStr.split_of_not_mem h5]
  rw [ofString_fields q init hm (by rw [hb]; exact hf0)]
  simp only [fieldConv, hb, haft, QStr.sectionAt, hsp, List.getD_cons_succ, List.getD_cons_zero,
    c1, c2, c3, c4, c5, QStr.textBefore_append_cons _ ha]
  simp [firstFailed, setValid]

/-- On a line that parses to a valid entry, with no `%` in its file name and
alias, rendered numbers that hold neither `%` nor `,`, and numbers that
survive rendering and conversion unchanged, parsing the `toString` of the
entry gives the entry back; hence the two are equal by `operator==` whenever
each number equals itself, and the round trip is idempotent. -/
theorem roundtrip_of_no_percent (q : QtDouble F) (init : OtoEntry F) (s : QString)
    (hv : (ofString q init s).m_valid = true)
    (hpf : '%' ∉ QStr.textBefore '=' s)
    (hpa : '%' ∉ QStr.textBefore ',' (QStr.textAfter '=' s))
    (hfmt : ∀ x, '%' ∉ q.fixed3 x ∧ ',' ∉ q.fixed3 x)
    (hnum : ∀ i, 1 ≤ i → i ≤ 5 →
      q.toDouble (q.fixed3 (fieldConv q s i).1) = ((fieldConv q s i).1, true)) :
    ofString q init (toString q (ofString q init s)) = ofString q init s ∧
      toString q (ofString q init (toString q (ofString q init s)))
        = toString q (ofString q init s) ∧
      ((∀ i, 1 ≤ i → i ≤ 5 → q.eqD (fieldConv q s i).1 (fieldConv q s i).1 = true) →
        eq q (ofString q init (toString q (ofString q init s))) (ofString q init s) = true) := by
  have hrec := ofString_valid_record q init s hv
  have hne := (ofString_valid_keeps q init s hv).2
  have hkey : ofString q init (toString q (ofString q init s)) = ofString q init s := by
    rw [toString_of_no_percent q _ (by rw [hrec]; exact hpf) (by rw [hrec]; exact hpa)
      (fun x => (hfmt x).1)]
    rw [ofString_concat q init _ _ _ _ _ _ _ (fieldConv q s 1).1 (fieldConv q s 2).1
      (fieldConv q s 3).1 (fieldConv q s 4).1 (fieldConv q s 5).1 hne
      (by rw [hrec]; exact QStr.not_mem_textBefore _ _)
      (by rw [hrec]; exact QStr.not_mem_textBefore _ _)
      (hfmt _).2 (hfmt _).2 (hfmt _).2 (hfmt _).2 (hfmt _).2
      (by rw [hrec]; exact hnum 1 (by omega) (by omega))
      (by rw [hrec]; exact hnum 2 (by omega) (by omega))
      (by rw [hrec]; exact hnum 3 (by omega) (by omega))
      (by rw [hrec]; exact hnum 4 (by omega) (by omega))
      (by rw [hrec]; exact hnum 5 (by omega) (by omega))]
    rw [hrec]
  refine ⟨hkey, by rw [hkey], ?_⟩
  intro hrefl
  rw [hkey, hrec]
  simp [eq, fileName, alias_, left, consonant, right, preUtterance, overlap,
    hrefl 1 (by omega) (by omega), hrefl 2 (by omega) (by omega), hrefl 3 (by omega) (by omega),
    hrefl 4 (by omega) (by omega), hrefl 5 (by omega) (by omega)]

/-- The round trip without a place marker, evaluated with the reference
routines on `f.wav=a,1,2.5,-3,4.125,5`. -/
theorem roundtrip_of_no_percent_example :
    toString refDouble (ofString refDouble refInit "f.wav=a,1,2.5,-3,4.125,5".toList)
        = "f.wav=a,1.000,2.500,-3.000,4.125,5.000".toList ∧
      ofString refDouble refInit
          (toString refDouble (ofString refDouble refInit "f.wav=a,1,2.5,-3,4.125,5".toList))
        = ofString refDouble refInit "f.wav=a,1,2.5,-3,4.125,5".toList := by
  constructor
  · decide
  · rfl

/-! ## What a failed parse leaves in the record -/

/-- On a line with a non-empty file name the parsing constructor assigns the
file name, the alias and all five numeric members, whatever the conversion
flags are. -/
theorem ofString_assigned (q : QtDouble F) (init : OtoEntry F) {s : QString}
    (hm : '=' ∈ s) (hf : QStr.textBefore '=' s ≠ []) :
    (ofString q init s).m_fileName = QStr.textBefore '=' s ∧
      (ofString q init s).m_alias = QStr.textBefore ',' (QStr.textAfter '=' s) ∧
      ∀ j, 1 ≤ j → j ≤ 5 →
        numericField (ofString q init s) j = some (fieldConv q s j).1 := by
  rw [ofString_fields q init hm hf]
  generalize (fieldConv q s 1).2 = b1
  generalize (fieldConv q s 2).2 = b2
  generalize (fieldConv q s 3).2 = b3
  generalize (fieldConv q s 4).2 = b4
  generalize (fieldConv q s 5).2 = b5
  cases b1 <;> cases b2 <;> cases b3 <;> cases b4 <;> cases b5 <;>
    refine ⟨by simp [firstFailed, convertError, setError, setValid],
      by simp [firstFailed, convertError, setError, setValid], ?_⟩ <;>
    intro j h1 h5 <;> interval_cases j <;>
    simp [firstFailed, convertError, setError, setValid, numericField]

/-- On a line with a non-empty file name the entry is valid exactly when all
five conversion flags are set. -/
theorem ofString_valid_iff_flags (q : QtDouble F) (init : OtoEntry F) {s : QString}
    (hm : '=' ∈ s) (hf : QStr.textBefore '=' s ≠ []) :
    (ofString q init s).m_valid = true ↔
      ∀ i, 1 ≤ i → i ≤ 5 → (fieldConv q s i).2 = true := by
  rw [ofString_fields q init hm hf, forall_fields]
  generalize (fieldConv q s 1).2 = b1
  generalize (fieldConv q s 2).2 = b2
  generalize (fieldConv q s 3).2 = b3
  generalize (fieldConv q s 4).2 = b4
  generalize (fieldConv q s 5).2 = b5
  cases b1 <;> cases b2 <;> cases b3 <;> cases b4 <;> cases b5 <;>
    simp [firstFailed, convertError, setError, setValid]

theorem ofString_invalid_of_failed (q : QtDouble F) (init : OtoEntry F) {s : QString}
    (hm : '=' ∈ s) (hf : QStr.textBefore '=' s ≠ []) {i : Nat} (hi1 : 1 ≤ i) (hi5 : i ≤ 5)
    (hfail : (fieldConv q s i).2 = false) : (ofString q init s).m_valid = false := by
  cases hv : (ofString q init s).m_valid with
  | false => rfl
  | true =>
    have := (ofString_valid_iff_flags q init hm hf).1 hv i hi1 hi5
    rw [hfail] at this
    exact absurd this (by simp)

/-- C15: on a line with a non-empty file name whose first failing numeric
field has index `i`, the entry is invalid and still holds the text before the
first `=` as file name, the 0th comma field as alias, and in every numeric
member with index below `i` the parsed value of its field. -/
theorem ofString_failed_keeps_earlier (q : QtDouble F) (init : OtoEntry F) (s : QString)
    (hm : '=' ∈ s) (hf : QStr.textBefore '=' s ≠ []) (i : Nat) (hi1 : 1 ≤ i) (hi5 : i ≤ 5)
    (hfail : (fieldConv q s i).2 = false)
    (hprev : ∀ j, 1 ≤ j → j < i → (fieldConv q s j).2 = true) :
    (ofString q init s).m_valid = false ∧
      (ofString q init s).m_fileName = QStr.textBefore '=' s ∧
      (ofString q init s).m_alias = QStr.sectionAt (QStr.textAfter '=' s) ',' 0 ∧
      ∀ j, 1 ≤ j → j < i →
        (fieldConv q s j).2 = true ∧
          numericField (ofString q init s) j = some (fieldConv q s j).1 := by
  obtain ⟨h1, h2, h3⟩ := ofString_assigned q init hm hf
  refine ⟨ofString_invalid_of_failed q init hm hf hi1 hi5 hfail, h1, ?_, ?_⟩
  · rw [h2, QStr.sectionAt_zero]
  · intro j hj1 hji
    exact ⟨hprev j hj1 hji, h3 j hj1 (by omega)⟩

/-- C15, evaluated with the reference routines on `f.wav=a,1,2,x,4,5`: the
third numeric field fails, `left` and `consonant` hold 1 and 2. -/
theorem ofString_failed_keeps_earlier_witness :
    (fieldConv refDouble "f.wav=a,1,2,x,4,5".toList 3).2 = false ∧
      (ofString refDouble refInit "f.wav=a,1,2,x,4,5".toList).m_valid = false ∧
      (ofString refDouble refInit "f.wav=a,1,2,x,4,5".toList).m_fileName = "f.wav".toList ∧
      (ofString refDouble refInit "f.wav=a,1,2,x,4,5".toList).m_alias = "a".toList ∧
      (ofString refDouble refInit "f.wav=a,1,2,x,4,5".toList).m_left = Dec.ofInt 1 ∧
      (ofString refDouble refInit "f.wav=a,1,2,x,4,5".toList).m_consonant = Dec.ofInt 2 := by
  obtain ⟨h1, h2, h3, h4⟩ :=
    ofString_failed_keeps_earlier refDouble refInit "f.wav=a,1,2,x,4,5".toList (by decide)
      (by decide) 3 (by decide) (by decide) (by decide)
      (by intro j hj1 hj3; interval_cases j <;> decide)
  have e1 := (h4 1 (by decide) (by decide)).2
  have e2 := (h4 2 (by decide) (by decide)).2
  simp only [numericField, Option.some.injEq] at e1 e2
  exact ⟨by decide, h1, h2.trans (by decide), h3.trans (by decide), e1.trans (by decide),
    e2.trans (by decide)⟩

/-- C16, as the code has it: all five conversions run before the flags are
inspected, so on a failed parse whose failing numeric field has index `i` the
entry is invalid and every numeric member with index above `i` holds the
value `toDouble` returned for its field, the converted number whenever the
text of the field is well formed. -/
theorem ofString_failed_assigns_later (q : QtDouble F) (init : OtoEntry F) (s : QString)
    (hm : '=' ∈ s) (hf : QStr.textBefore '=' s ≠ []) (i : Nat) (hi1 : 1 ≤ i) (hi5 : i ≤ 5)
    (hfail : (fieldConv q s i).2 = false) :
    (ofString q init s).m_valid = false ∧
      ∀ j, i < j → j ≤ 5 →
        numericField (ofString q init s) j = some (fieldConv q s j).1 := by
  refine ⟨ofString_invalid_of_failed q init hm hf hi1 hi5 hfail, ?_⟩
  intro j hij hj5
  exact (ofString_assigned q init hm hf).2.2 j (by omega) hj5

/-- C16 as amended, evaluated with the reference routines on
`f.wav=a,x,2,3,4,5`: the first numeric field fails and the four later
members hold 2, 3, 4, 5. -/
theorem ofString_failed_assigns_later_witness :
    (fieldConv refDouble "f.wav=a,x,2,3,4,5".toList 1).2 = false ∧
      (ofString refDouble refInit "f.wav=a,x,2,3,4,5".toList).m_valid = false ∧
      (ofString refDouble refInit "f.wav=a,x,2,3,4,5".toList).m_consonant = Dec.ofInt 2 ∧
      (ofString refDouble refInit "f.wav=a,x,2,3,4,5".toList).m_right = Dec.ofInt 3 ∧
      (ofString refDouble refInit "f.wav=a,x,2,3,4,5".toList).m_preUtterance = Dec.ofInt 4 ∧
      (ofString refDouble refInit "f.wav=a,x,2,3,4,5".toList).m_overlap = Dec.ofInt 5 := by
  obtain ⟨h1, h2⟩ :=
    ofString_failed_assigns_later refDouble refInit "f.wav=a,x,2,3,4,5".toList (by decide)
      (by decide) 1 (by decide) (by decide) (by decide)
  have e2 := h2 2 (by decide) (by decide)
  have e3 := h2 3 (by decide) (by decide)
  have e4 := h2 4 (by decide) (by decide)
  have e5 := h2 5 (by decide) (by decide)
  simp only [numericField, Option.some.injEq] at e2 e3 e4 e5
  exact ⟨by decide, h1, e2.trans (by decide), e3.trans (by decide), e4.trans (by decide),
    e5.trans (by decide)⟩

/-- C16 as stated fails: after parsing `f.wav=a,x,2,3,4,5`, whose first
numeric field fails, the members consonant, right, preUtterance and overlap
hold 2, 3, 4 and 5, not the values they had before parsing. -/
theorem ofString_later_fields_counterexample :
    (fieldConv refDouble "f.wav=a,x,2,3,4,5".toList 1).2 = false ∧
      (ofString refDouble refInit "f.wav=a,x,2,3,4,5".toList).m_consonant = Dec.ofInt 2 ∧
      (ofString refDouble refInit "f.wav=a,x,2,3,4,5".toList).m_consonant
        ≠ refInit.m_consonant ∧
      (ofString refDouble refInit "f.wav=a,x,2,3,4,5".toList).m_right ≠ refInit.m_right ∧
      (ofString refDouble refInit "f.wav=a,x,2,3,4,5".toList).m_preUtterance
        ≠ refInit.m_preUtterance ∧
      (ofString refDouble refInit "f.wav=a,x,2,3,4,5".toList).m_overlap ≠ refInit.m_overlap := by
  refine ⟨by decide, by decide, by decide, by decide, by decide, by decide⟩

/-! ## Assignment -/

/-- When the two sides differ by `operator!=`, assignment copies every
member, as the copy constructor does. -/
theorem assign_of_ne (q : QtDouble F) (a b : OtoEntry F) (h : ne q a b = true) :
    assign q a b = copy b := by
  simp [assign, copy, h]

/-- When the two sides are equal by `operator==`, assignment leaves the
receiver as it is, `valid` and `error` included. -/
theorem assign_of_eq (q : QtDouble F) (a b : OtoEntry F) (h : eq q a b = true) :
    assign q a b = a := by
  simp [assign, ne, h]

/-- C19 at two entries that agree on the seven data fields: for the valid
entry `a = OtoEntry("f.wav", "a", 1, 2, 3, 4, 0)` and the invalid entry `b`
parsed from `f.wav=a,1,2,3,4,x` (overlap 0, error `OverlapConvertFailed`),
the guard `*this != rhs` is false, so after `a = b` the receiver is still
valid with no error, while the copy constructor applied to `b` gives an
invalid entry with the error of `b`. -/
theorem assign_keeps_valid_and_error :
    (ofString refDouble refInit "f.wav=a,1,2,3,4,x".toList).m_valid = false ∧
      (ofString refDouble refInit "f.wav=a,1,2,3,4,x".toList).m_error
        = some .OverlapConvertFailed ∧
      ne refDouble
        (ofFields refInit "f.wav".toList "a".toList (Dec.ofInt 1) (Dec.ofInt 2) (Dec.ofInt 3)
          (Dec.ofInt 4) (Dec.ofInt 0))
        (ofString refDouble refInit "f.wav=a,1,2,3,4,x".toList) = false ∧
      (assign refDouble
        (ofFields refInit "f.wav".toList "a".toList (Dec.ofInt 1) (Dec.ofInt 2) (Dec.ofInt 3)
          (Dec.ofInt 4) (Dec.ofInt 0))
        (ofString refDouble refInit "f.wav=a,1,2,3,4,x".toList)).m_valid = true ∧
      (assign refDouble
        (ofFields refInit "f.wav".toList "a".toList (Dec.ofInt 1) (Dec.ofInt 2) (Dec.ofInt 3)
          (Dec.ofInt 4) (Dec.ofInt 0))
        (ofString refDouble refInit "f.wav=a,1,2,3,4,x".toList)).m_error = none ∧
      (copy (ofString refDouble refInit "f.wav=a,1,2,3,4,x".toList)).m_valid = false ∧
      (copy (ofString refDouble refInit "f.wav=a,1,2,3,4,x".toList)).m_error
        = some .OverlapConvertFailed := by
  refine ⟨by decide, by decide, by decide, by decide, by decide, by decide, by decide⟩

/-! ## Extra trailing fields -/

theorem textBefore_append_of_mem {c : Char} {s : QString} (t : QString) (h : c ∈ s) :
    QStr.textBefore c (s ++ t) = QStr.textBefore c s := by
  induction s with
  | nil => simp at h
  | cons x xs ih =>
    unfold QStr.textBefore at ih ⊢
    by_cases hx : (x != c) = true
    · have hc : c ∈ xs := by
        rcases List.mem_cons.1 h with h1 | h1
        · subst h1
          simp at hx
        · exact h1
      simp [List.takeWhile, hx, ih hc]
    · simp [List.takeWhile, hx]

theorem textAfter_append_of_mem {c : Char} {s : QString} (t : QString) (h : c ∈ s) :
    QStr.textAfter c (s ++ t) = QStr.textAfter c s ++ t := by
  induction s with
  | nil => simp at h
  | cons x xs ih =>
    unfold QStr.textAfter at ih ⊢
    by_cases hx : (x != c) = true
    · have hc : c ∈ xs := by
        rcases List.mem_cons.1 h with h1 | h1
        · subst h1
          simp at hx
        · exact h1
      simp only [List.cons_append, List.dropWhile, hx]
      exact ih hc
    · simp [List.dropWhile, hx]

theorem split_append_sep (sep : Char) (p r : QString) :
    QStr.split sep (p ++ sep :: r) = QStr.split sep p ++ QStr.split sep r := by
  induction p with
  | nil => simp [QStr.split]
  | cons x xs ih =>
    by_cases hx : x = sep
    · simp [QStr.split, hx, ih]
    · simp only [List.cons_append, QStr.split, hx, if_false, ih]
      cases hsp : QStr.split sep xs with
      | nil => exact absurd hsp (QStr.split_ne_nil sep xs)
      | cons f fs =>
        rw [hsp] at ih
        simp [ih]

theorem sectionAt_append_sep (sep : Char) (p r : QString) {i : Nat}
    (h : i < (QStr.split sep p).length) :
    QStr.sectionAt (p ++ sep :: r) sep i = QStr.sectionAt p sep i := by
  unfold QStr.sectionAt
  rw [split_append_sep, List.getD_eq_getElem?_getD, List.getD_eq_getElem?_getD,
    List.getElem?_append_left h]

/-- C20: on a line that contains `=` and has at least six comma-delimited
fields after its first `=`, appending a comma and any text changes nothing
in the parsed entry: the seven data fields, `valid` and `error` are the
same. -/
theorem ofString_extra_fields (q : QtDouble F) (init : OtoEntry F) (line extra : QString)
    (hm : '=' ∈ line)
    (hlen : 6 ≤ (QStr.split ',' (QStr.textAfter '=' line)).length) :
    ofString q init (line ++ ',' :: extra) = ofString q init line := by
  have hm' : '=' ∈ line ++ ',' :: extra := List.mem_append_left _ hm
  by_cases hh : line.head? = some '='
  · have hh' : (line ++ ',' :: extra).head? = some '=' := by
      cases line with
      | nil => simp at hh
      | cons x xs => simpa using hh
    rw [ofString_empty_fileName q init hh, ofString_empty_fileName q init hh']
  · have hs : line ≠ [] := by
      rintro rfl
      simp at hm
    have hf : QStr.textBefore '=' line ≠ [] := by
      rw [Ne, QStr.textBefore_eq_nil_iff]
      tauto
    have hb := textBefore_append_of_mem (',' :: extra) hm
    have ha := textAfter_append_of_mem (',' :: extra) hm
    have hsec : ∀ i, i < 6 →
        QStr.sectionAt (QStr.textAfter '=' (line ++ ',' :: extra)) ',' i
          = QStr.sectionAt (QStr.textAfter '=' line) ',' i := by
      intro i hi
      rw [ha]
      exact sectionAt_append_sep ',' _ _ (by omega)
    rw [ofString_fields q init hm' (by rw [hb]; exact hf), ofString_fields q init hm hf]
    simp only [fieldConv, hb, ← QStr.sectionAt_zero, hsec 0 (by omega), hsec 1 (by omega),
      hsec 2 (by omega), hsec 3 (by omega), hsec 4 (by omega), hsec 5 (by omega)]

/-- C20, evaluated with the reference routines: `f.wav=a,1,2,3,4,5` and the
same line followed by `,junk,6`. -/
theorem ofString_extra_fields_witness :
    '=' ∈ "f.wav=a,1,2,3,4,5".toList ∧
      6 ≤ (QStr.split ',' (QStr.textAfter '=' "f.wav=a,1,2,3,4,5".toList)).length ∧
      ofString refDouble refInit ("f.wav=a,1,2,3,4,5".toList ++ ',' :: "junk,6".toList)
        = ofString refDouble refInit "f.wav=a,1,2,3,4,5".toList :=
  ⟨by decide, by decide,
    ofString_extra_fields refDouble refInit "f.wav=a,1,2,3,4,5".toList "junk,6".toList
      (by decide) (by decide)⟩

end OtoEntry

/-! ## The digit suffix -/

namespace OtoEntryFunctions

/-- The loop of `getDigitSuffix`, started at a position `k` with the text
from `k` on, all digits, as its result so far: it stops at a position `j`,
returns the text from `j` on, all digits, and either `j = 0` and nothing is
written, or the character before `j` is not a digit and the position
written is `j`, or `-1` when `j` is the end of the string. -/
theorem digitLoop_spec (isDigit : Char → Bool) (s : QString) :
    ∀ (k : Nat) (result : QString), k ≤ s.length → result = s.drop k →
      (∀ c ∈ result, isDigit c = true) →
      ∃ j, j ≤ k ∧ (digitLoop isDigit s k result).1 = s.drop j ∧
        (∀ c ∈ s.drop j, isDigit c = true) ∧
        ((j = 0 ∧ (digitLoop isDigit s k result).2 = none) ∨
          (∃ i, j = i + 1 ∧ isDigit (s.getD i ' ') = false ∧
            (digitLoop isDigit s k result).2
              = some (if (i : Int) ≠ (s.length : Int) - 1 then (i : Int) + 1 else -1))) := by
  intro k
  induction k with
  | zero =>
    intro result _ hres hall
    exact ⟨0, le_refl 0, by simpa [digitLoop] using hres, by simpa [hres] using hall,
      Or.inl ⟨rfl, rfl⟩⟩
  | succ k ih =>
    intro result hk hres hall
    by_cases hd : isDigit (s.getD k ' ') = true
    · have hlt : k < s.length := hk
      have hdrop : s.getD k ' ' :: result = s.drop k := by
        rw [hres, List.getD_eq_getElem _ _ hlt]
        exact (List.drop_eq_getElem_cons hlt).symm
      obtain ⟨j, hj, h1, h2, h3⟩ := ih (s.getD k ' ' :: result) (by omega) hdrop
        (by
          intro c hc
          rcases List.mem_cons.1 hc with h | h
          · rw [h]; exact hd
          · exact hall c h)
      refine ⟨j, by omega, ?_, h2, ?_⟩
      · simp only [digitLoop, hd, if_true]
        exact h1
      · simp only [digitLoop, hd, if_true]
        exact h3
    · have hd' : isDigit (s.getD k ' ') = false := by
        cases h : isDigit (s.getD k ' ') with
        | false => rfl
        | true => exact absurd h hd
      refine ⟨k + 1, le_refl _, ?_, ?_, Or.inr ⟨k, rfl, hd', ?_⟩⟩
      · simp only [digitLoop, hd', Bool.false_eq_true, if_false]
        exact hres
      · rw [← hres]
        exact hall
      · simp only [digitLoop, hd', Bool.false_eq_true, if_false]

/-- C14: `getDigitSuffix` splits every string as `pre ++ digits`, where
`digits` holds digits only and `pre` is empty or ends in a character that is
not a digit.  The position written is the start `len(s) - len(digits)` of the
digits when `0 < len(digits) < len(s)`; it is `-1` when the last character is
not a digit (no digits), and nothing is written when the digits span the
whole string, the empty string included; so a start position is reported
exactly when `0 < len(digits) < len(s)`.  With the ASCII digit test,
`abc123` gives `123` and 3, `123` gives `123` and nothing, `abc` gives the
empty text and `-1`. -/
theorem getDigitSuffix_spec (isDigit : Char → Bool) (s : QString) :
    (∃ pre, s = pre ++ (getDigitSuffix isDigit s).1 ∧
        (∀ c ∈ (getDigitSuffix isDigit s).1, isDigit c = true) ∧
        (pre = [] ∨ ∃ pre0 c, pre = pre0 ++ [c] ∧ isDigit c = false)) ∧
      (0 < (getDigitSuffix isDigit s).1.length ∧ (getDigitSuffix isDigit s).1.length < s.length →
        (getDigitSuffix isDigit s).2
          = some ((s.length : Int) - ((getDigitSuffix isDigit s).1.length : Int))) ∧
      ((getDigitSuffix isDigit s).1 = [] → s ≠ [] → (getDigitSuffix isDigit s).2 = some (-1)) ∧
      ((getDigitSuffix isDigit s).1.length = s.length → (getDigitSuffix isDigit s).2 = none) ∧
      ((∃ n : Nat, (getDigitSuffix isDigit s).2 = some (n : Int)) ↔
        0 < (getDigitSuffix isDigit s).1.length ∧
          (getDigitSuffix isDigit s).1.length < s.length) ∧
      (getDigitSuffix Char.isDigit "abc123".toList = ("123".toList, some 3) ∧
        getDigitSuffix Char.isDigit "123".toList = ("123".toList, none) ∧
        getDigitSuffix Char.isDigit "abc".toList = ([], some (-1))) := by
  obtain ⟨j, hj, h1, h2, h3⟩ :=
    digitLoop_spec isDigit s s.length [] (le_refl _) (by simp) (by simp)
  have hlen : (getDigitSuffix isDigit s).1.length = s.length - j := by
    show (digitLoop isDigit s s.length []).1.length = _
    rw [h1, List.length_drop]
  have hpre : ∃ pre, s = pre ++ (getDigitSuffix isDigit s).1 ∧
      (∀ c ∈ (getDigitSuffix isDigit s).1, isDigit c = true) ∧
      (pre = [] ∨ ∃ pre0 c, pre = pre0 ++ [c] ∧ isDigit c = false) := by
    refine ⟨s.take j, ?_, ?_, ?_⟩
    · show s = s.take j ++ (digitLoop isDigit s s.length []).1
      rw [h1, List.take_append_drop]
    · show ∀ c ∈ (digitLoop isDigit s s.length []).1, isDigit c = true
      rw [h1]
      exact h2
    · rcases h3 with ⟨hj0, _⟩ | ⟨i, hi, hnd, _⟩
      · left
        simp [hj0]
      · right
        have hilt : i < s.length := by omega
        refine ⟨s.take i, s.getD i ' ', ?_, hnd⟩
        rw [hi, List.take_succ, List.getD_eq_getElem _ _ hilt, List.getElem?_eq_getElem hilt]
        rfl
  have hpos : (getDigitSuffix isDigit s).2 = (digitLoop isDigit s s.length []).2 := rfl
  refine ⟨hpre, ?_, ?_, ?_, ?_, by decide, by decide, by decide⟩
  · rintro ⟨hpos1, hpos2⟩
    rcases h3 with ⟨hj0, _⟩ | ⟨i, hi, _, hw⟩
    · omega
    · rw [hpos, hw, hlen, if_pos (by omega)]
      congr 1
      omega
  · intro hnil hs
    have hl0 : s.length - j = 0 := by rw [← hlen, hnil]; rfl
    have hspos : 0 < s.length := List.length_pos.2 hs
    rcases h3 with ⟨hj0, _⟩ | ⟨i, hi, _, hw⟩
    · omega
    · rw [hpos, hw, if_neg (by omega)]
  · intro hfull
    rcases h3 with ⟨_, hw⟩ | ⟨i, hi, _, _⟩
    · rw [hpos, hw]
    · omega
  · constructor
    · rintro ⟨n, hn⟩
      rcases h3 with ⟨_, hw⟩ | ⟨i, hi, _, hw⟩
      · rw [hpos, hw] at hn
        exact absurd hn (by simp)
      · rw [hpos, hw] at hn
        have hn' := Option.some.inj hn
        split_ifs at hn' with hc
        omega
    · rintro ⟨hpos1, hpos2⟩
      rcases h3 with ⟨hj0, _⟩ | ⟨i, hi, _, hw⟩
      · omega
      · refine ⟨i + 1, ?_⟩
        rw [hpos, hw, if_pos (by omega)]
        simp

end OtoEntryFunctions

/-! ## The last occurrence of a text -/

namespace QStr

theorem sameText_refl (fold : Char → Char) (cs : CaseSensitivity) (a : QString) :
    sameText fold cs a a = true := by
  induction a with
  | nil => rfl
  | cons x xs ih => cases cs <;> simp [sameText, eqUnder, ih]

theorem sameText_length {fold : Char → Char} {cs : CaseSensitivity} :
    ∀ {a b : QString}, sameText fold cs a b = true → a.length = b.length
  | [], [], _ => rfl
  | [], _ :: _, h => by simp [sameText] at h
  | _ :: _, [], h => by simp [sameText] at h
  | _ :: as, _ :: bs, h => by
    simp only [sameText, Bool.and_eq_true] at h
    simp [sameText_length h.2]

/-- The backward scan returns the greatest matching position at or below its
start, or `-1` when no position at or below the start matches. -/
theorem lastIndexOfHelper_spec (fold : Char → Char) (cs : CaseSensitivity) (s sub : QString)
    (k : Nat) :
    (lastIndexOfHelper fold cs s sub k = -1 ∧ ∀ j, j ≤ k → matchAt fold cs s sub j = false) ∨
      (∃ i, i ≤ k ∧ lastIndexOfHelper fold cs s sub k = (i : Int) ∧
        matchAt fold cs s sub i = true ∧
        ∀ j, i < j → j ≤ k → matchAt fold cs s sub j = false) := by
  induction k with
  | zero =>
    cases h : matchAt fold cs s sub 0 with
    | true =>
      right
      exact ⟨0, le_refl 0, by simp [lastIndexOfHelper, h], h, fun j h1 h2 => by omega⟩
    | false =>
      left
      refine ⟨by simp [lastIndexOfHelper, h], ?_⟩
      intro j hj
      have : j = 0 := by omega
      rw [this]
      exact h
  | succ k ih =>
    cases h : matchAt fold cs s sub (k + 1) with
    | true =>
      right
      exact ⟨k + 1, le_refl _, by simp [lastIndexOfHelper, h], h, fun j h1 h2 => by omega⟩
    | false =>
      rcases ih with ⟨h1, h2⟩ | ⟨i, hi, h1, h2, h3⟩
      · left
        refine ⟨by simp [lastIndexOfHelper, h, h1], ?_⟩
        intro j hj
        rcases Nat.lt_or_ge j (k + 1) with hlt | hge
        · exact h2 j (by omega)
        · have : j = k + 1 := by omega
          rw [this]
          exact h
      · right
        refine ⟨i, by omega, by simp [lastIndexOfHelper, h, h1], h2, ?_⟩
        intro j hij hj
        rcases Nat.lt_or_ge j (k + 1) with hlt | hge
        · exact h3 j hij (by omega)
        · have : j = k + 1 := by omega
          rw [this]
          exact h

/-- For a non-empty needle, `lastIndexOf` is the greatest position where the
needle occurs, or `-1` when it occurs nowhere. -/
theorem lastIndexOf_spec (fold : Char → Char) (cs : CaseSensitivity) (s sub : QString)
    (hsub : sub ≠ []) :
    (lastIndexOf fold s sub cs = -1 ∧ ∀ i, ¬ occursAt fold cs s sub i) ∨
      (∃ i : Nat, lastIndexOf fold s sub cs = (i : Int) ∧ occursAt fold cs s sub i ∧
        ∀ j, i < j → ¬ occursAt fold cs s sub j) := by
  have hsl : 0 < sub.length := List.length_pos.2 hsub
  unfold lastIndexOf
  by_cases hshort : s.length < sub.length
  · left
    refine ⟨?_, ?_⟩
    · simp only
      rw [if_pos (Or.inr (by omega))]
    · rintro i ⟨hb, _⟩
      omega
  · have hcond : ¬ ((-1 + (s.length : Int) < 0) ∨ ((s.length : Int) - (sub.length : Int) < 0)) := by
      omega
    have hk : (min (-1 + (s.length : Int)) ((s.length : Int) - (sub.length : Int))).toNat
        = s.length - sub.length := by omega
    simp only [if_neg hcond, hk]
    rcases lastIndexOfHelper_spec fold cs s sub (s.length - sub.length) with
      ⟨h1, h2⟩ | ⟨i, hi, h1, h2, h3⟩
    · left
      refine ⟨h1, ?_⟩
      rintro i ⟨hb, hmt⟩
      have := h2 i (by omega)
      unfold matchAt at this
      rw [hmt] at this
      exact absurd this (by simp)
    · right
      refine ⟨i, h1, ⟨by omega, h2⟩, ?_⟩
      rintro j hij ⟨hb, hmt⟩
      have := h3 j hij (by omega)
      unfold matchAt at this
      rw [hmt] at this
      exact absurd this (by simp)

theorem occursAt_append_self (fold : Char → Char) (cs : CaseSensitivity) (t sub : QString) :
    occursAt fold cs (t ++ sub) sub t.length ∧
      ∀ j, t.length < j → sub ≠ [] → ¬ occursAt fold cs (t ++ sub) sub j := by
  constructor
  · refine ⟨by simp, ?_⟩
    simp [sameText_refl]
  · rintro j hj hsub ⟨hb, _⟩
    have hsl : 0 < sub.length := List.length_pos.2 hsub
    simp only [List.length_append] at hb
    omega

end QStr

namespace OtoEntryFunctions

/-- When the suffix text occurs nowhere in the string, `removeSuffix` returns
the string. -/
theorem removeSuffix_of_none (fold : Char → Char) (cs : CaseSensitivity) (s suffix : QString)
    (h : ∀ i, ¬ QStr.occursAt fold cs s suffix i) : removeSuffix fold s suffix cs = s := by
  have hsub : suffix ≠ [] := by
    rintro rfl
    exact h s.length ⟨by simp, by simp [QStr.sameText]⟩
  rcases QStr.lastIndexOf_spec fold cs s suffix hsub with ⟨h1, _⟩ | ⟨i, _, h2, _⟩
  · simp [removeSuffix, h1]
  · exact absurd h2 (h i)

theorem remove_zero (s : QString) (pos : Int) : QStr.remove s pos 0 = s := by
  unfold QStr.remove
  simp only
  split_ifs <;> first
    | rfl
    | (exfalso; omega)

/-- When `i` is the last position where the suffix text occurs, `removeSuffix`
deletes the occurrence at `i` and keeps the rest. -/
theorem removeSuffix_of_last (fold : Char → Char) (cs : CaseSensitivity) (s suffix : QString)
    (i : Nat) (hi : QStr.occursAt fold cs s suffix i)
    (hlast : ∀ j, i < j → ¬ QStr.occursAt fold cs s suffix j) :
    removeSuffix fold s suffix cs = s.take i ++ s.drop (i + suffix.length) := by
  by_cases hsub : suffix = []
  · subst hsub
    have hil : i = s.length := by
      rcases Nat.lt_or_ge i s.length with hlt | hge
      · exact absurd ⟨by simp, by simp [QStr.sameText]⟩ (hlast s.length hlt)
      · have := hi.1
        simp at this
        omega
    subst hil
    simp only [List.length_nil, add_zero, List.take_length, List.drop_length, List.append_nil]
    unfold removeSuffix
    simp only [List.length_nil, Nat.cast_zero, remove_zero, ite_self]
  · have hsl : 0 < suffix.length := List.length_pos.2 hsub
    rcases QStr.lastIndexOf_spec fold cs s suffix hsub with ⟨_, h2⟩ | ⟨k, h1, h2, h3⟩
    · exact absurd hi (h2 i)
    · have hki : k = i := by
        rcases Nat.lt_trichotomy k i with hlt | heq | hgt
        · exact absurd hi (h3 i hlt)
        · exact heq
        · exact absurd h2 (hlast k hgt)
      subst hki
      have hb := hi.1
      unfold removeSuffix
      simp only [h1]
      rw [if_pos (by omega)]
      unfold QStr.remove
      have hneg : ¬ ((k : Int) < 0) := by omega
      simp only [if_neg hneg]
      rw [if_neg (by omega)]
      by_cases hend : k + suffix.length = s.length
      · rw [if_pos (by omega)]
        simp [hend]
      · rw [if_neg (by omega), if_pos (by omega)]
        congr 2

/-- Removing a text appended to a string gives the string back. -/
theorem removeSuffix_append (fold : Char → Char) (cs : CaseSensitivity) (t suffix : QString) :
    removeSuffix fold (t ++ suffix) suffix cs = t := by
  obtain ⟨hocc, hlater⟩ := QStr.occursAt_append_self fold cs t suffix
  by_cases hsub : suffix = []
  · subst hsub
    have h := removeSuffix_of_last fold cs (t ++ []) [] (t ++ []).length
      ⟨by simp, by simp [QStr.sameText]⟩ (by
        rintro j hj ⟨hb, _⟩
        simp at hb hj
        omega)
    simpa using h
  · rw [removeSuffix_of_last fold cs (t ++ suffix) suffix t.length hocc
      (fun j hj => hlater j hj hsub)]
    simp

/-- C13: `removeSuffix` returns the string unchanged when the suffix text
occurs nowhere in it under the case policy; otherwise, with `i` the last
position where it occurs, it returns the characters before `i` followed by
the characters after the occurrence, so that only this occurrence is deleted
and earlier ones stay.  Hence `removeSuffix(s ++ suffix, suffix,
CaseSensitive) = s` for all `s` and `suffix`; `hello_world` without `world`
is `hello_`, and `abcabcab` without `abc` is `abcab`. -/
theorem removeSuffix_spec (fold : Char → Char) (s suffix : QString) (cs : CaseSensitivity) :
    ((∀ i, ¬ QStr.occursAt fold cs s suffix i) → removeSuffix fold s suffix cs = s) ∧
      (∀ i, QStr.occursAt fold cs s suffix i →
        (∀ j, i < j → ¬ QStr.occursAt fold cs s suffix j) →
        removeSuffix fold s suffix cs = s.take i ++ s.drop (i + suffix.length)) ∧
      removeSuffix fold (s ++ suffix) suffix .CaseSensitive = s ∧
      removeSuffix fold "hello_world".toList "world".toList .CaseSensitive = "hello_".toList ∧
      removeSuffix fold "abcabcab".toList "abc".toList .CaseSensitive = "abcab".toList := by
  refine ⟨removeSuffix_of_none fold cs s suffix, removeSuffix_of_last fold cs s suffix,
    removeSuffix_append fold .CaseSensitive s suffix,
    removeSuffix_append fold .CaseSensitive "hello_".toList "world".toList, ?_⟩
  have h := removeSuffix_of_last fold .CaseSensitive "abcabcab".toList "abc".toList 3
    (by simp [QStr.occursAt, QStr.sameText, QStr.eqUnder]) (by
      rintro j hj ⟨hb, hm⟩
      have hj5 : j ≤ 5 := by
        simp at hb
        omega
      interval_cases j <;> simp [QStr.sameText, QStr.eqUnder] at hm)
  rw [h]
  rfl

/-! ## The pitch suffix -/

theorem lastIndexOf_eq_neg_one_of_none (fold : Char → Char) (cs : CaseSensitivity)
    (s sub : QString) (h : ∀ i, ¬ QStr.occursAt fold cs s sub i) :
    QStr.lastIndexOf fold s sub cs = -1 := by
  have hsub : sub ≠ [] := by
    rintro rfl
    exact h s.length ⟨by simp, by simp [QStr.sameText]⟩
  rcases QStr.lastIndexOf_spec fold cs s sub hsub with ⟨h1, _⟩ | ⟨i, _, h2, _⟩
  · exact h1
  · exact absurd h2 (h i)

theorem lastIndexOf_ne_neg_one_of_occurs (fold : Char → Char) (cs : CaseSensitivity)
    (s sub : QString) (hsub : sub ≠ []) (i : Nat) (h : QStr.occursAt fold cs s sub i) :
    QStr.lastIndexOf fold s sub cs ≠ -1 := by
  rcases QStr.lastIndexOf_spec fold cs s sub hsub with ⟨_, h2⟩ | ⟨k, h1, _, _⟩
  · exact absurd h (h2 i)
  · rw [h1]
    omega

/-- The loop of `removePitchSuffix` passes over the pitch strings that occur
nowhere in the alias. -/
theorem pitchLoop_skip (fold : Char → Char) (alias_ : QString) (cs : CaseSensitivity)
    (pre rest : List QString) (h : ∀ x ∈ pre, ∀ i, ¬ QStr.occursAt fold cs alias_ x i) :
    pitchLoop fold alias_ cs (pre ++ rest) = pitchLoop fold alias_ cs rest := by
  induction pre with
  | nil => rfl
  | cons x xs ih =>
    have hx := lastIndexOf_eq_neg_one_of_none fold cs alias_ x
      (h x (List.mem_cons_self _ _))
    simp only [List.cons_append, pitchLoop, hx, ne_eq, not_true_eq_false, if_false]
    exact ih (fun y hy => h y (List.mem_cons_of_mem _ hy))

/-- What the loop of `removePitchSuffix` does: it stops at the first pitch
string of the range that occurs anywhere in the alias, reports it and
removes its last occurrence; when no pitch string of the range occurs in the
alias it returns the alias and reports nothing. -/
theorem pitchLoop_spec (fold : Char → Char) (alias_ : QString) (cs : CaseSensitivity) :
    (∀ range : List QString, (∀ x ∈ range, ∀ i, ¬ QStr.occursAt fold cs alias_ x i) →
        pitchLoop fold alias_ cs range = (alias_, none)) ∧
      (∀ (pre post : List QString) (p : QString) (i : Nat), p ≠ [] →
        (∀ x ∈ pre, ∀ j, ¬ QStr.occursAt fold cs alias_ x j) →
        QStr.occursAt fold cs alias_ p i →
        pitchLoop fold alias_ cs (pre ++ p :: post)
          = (removeSuffix fold alias_ p cs, some p)) := by
  constructor
  · intro range h
    have := pitchLoop_skip fold alias_ cs range [] h
    rw [List.append_nil] at this
    rw [this]
    rfl
  · intro pre post p i hp hpre hocc
    rw [pitchLoop_skip fold alias_ cs pre _ hpre]
    have hne := lastIndexOf_ne_neg_one_of_occurs fold cs alias_ p hp i hocc
    simp only [pitchLoop, hne, ne_eq, not_false_eq_true, if_true]

theorem octaveLoop_ne_nil (q : QtInt) (cs : CharacterCase) (bl tl : Nat) (bo tp : Int)
    (fuel : Nat) :
    ∀ (cur : Int) (acc r : List QString),
      octaveLoop q (PitchNameOrder cs) bl tl bo tp fuel cur acc = some r →
      (∀ x ∈ acc, x ≠ []) → ∀ x ∈ r, x ≠ [] := by
  induction fuel with
  | zero =>
    intro cur acc r h
    simp [octaveLoop] at h
  | succ f ih =>
    intro cur acc r h hacc
    by_cases hle : cur ≤ tp
    · simp only [octaveLoop, if_pos hle] at h
      refine ih _ _ r h ?_
      intro x hx
      rcases List.mem_append.1 hx with h1 | h1
      · exact hacc x h1
      · rw [pitchNameLoop_eq] at h1
        simp only [List.map_map, List.mem_map] at h1
        obtain ⟨l, _, rfl⟩ := h1
        simp [renderPitch]
    · simp only [octaveLoop, if_neg hle, Option.some.injEq] at h
      rw [← h]
      exact hacc

/-- Every pitch string of a generated range is non-empty. -/
theorem getPitchStringRange_ne_nil (q : QtInt) (fuel : Nat) (bottomPitch topPitch : QString)
    (cs : CharacterCase) (r : List QString)
    (h : getPitchStringRange q fuel bottomPitch topPitch cs = some r) : ∀ x ∈ r, x ≠ [] := by
  cases bottomPitch with
  | nil =>
    simp only [getPitchStringRange, Option.some.injEq] at h
    subst h
    simp
  | cons b0 br =>
    cases topPitch with
    | nil =>
      simp only [getPitchStringRange, Option.some.injEq] at h
      subst h
      simp
    | cons t0 tr =>
      simp only [getPitchStringRange] at h
      split_ifs at h with h1 h2
      · rw [← Option.some.inj h]
        simp
      · rw [← Option.some.inj h]
        simp
      · exact octaveLoop_ne_nil q cs _ _ _ _ fuel _ [] r h (by simp)

/-- C12: when the pitch range is generated and holds the pitch string `p`
after pitch strings none of which occurs in `stem ++ p` under the case
policy, `removePitchSuffix(stem ++ p, ...)` returns `stem` and reports
`p`. -/
theorem removePitchSuffix_stem (q : QtInt) (fold : Char → Char) (fuel : Nat)
    (stem bottomPitch topPitch : QString) (cs : CaseSensitivity) (cc : CharacterCase)
    (pre post : List QString) (p : QString)
    (hrange : getPitchStringRange q fuel bottomPitch topPitch cc = some (pre ++ p :: post))
    (hearlier : ∀ x ∈ pre, ∀ i, ¬ QStr.occursAt fold cs (stem ++ p) x i) :
    removePitchSuffix q fold fuel (stem ++ p) bottomPitch topPitch cs cc
      = some (stem, some p) := by
  have hp : p ≠ [] :=
    getPitchStringRange_ne_nil q fuel bottomPitch topPitch cc _ hrange p (by simp)
  unfold removePitchSuffix
  rw [hrange, Option.map_some']
  rw [(pitchLoop_spec fold (stem ++ p) cs).2 pre post p stem.length hp hearlier
    (QStr.occursAt_append_self fold cs stem p).1, removeSuffix_append]

/-- C12, evaluated with the reference routines and ASCII case folding:
`removePitchSuffix("kaC4", "C3", "C5", CaseInsensitive, Upper)` returns `ka`
and reports `C4`. -/
theorem removePitchSuffix_stem_witness :
    removePitchSuffix refInt Char.toLower 5 ("ka".toList ++ "C4".toList) "C3".toList
        "C5".toList .CaseInsensitive .Upper
      = some ("ka".toList, some "C4".toList) := by
  refine removePitchSuffix_stem refInt Char.toLower 5 "ka".toList "C3".toList "C5".toList
    .CaseInsensitive .Upper
    ["C3".toList, "D3".toList, "E3".toList, "F3".toList, "G3".toList, "A3".toList, "B3".toList]
    ["D4".toList, "E4".toList, "F4".toList, "G4".toList, "A4".toList, "B4".toList, "C5".toList]
    "C4".toList (by decide) ?_
  intro x hx i hocc
  have hi : i ≤ 4 := by
    have := hocc.1
    simp at this
    omega
  simp only [List.mem_cons, List.mem_singleton, List.not_mem_nil, or_false] at hx
  rcases hx with rfl | rfl | rfl | rfl | rfl | rfl | rfl <;>
    interval_cases i <;> revert hocc <;> decide

/-- C11 at an alias that holds a pitch string elsewhere than at its end: for
`removePitchSuffix("C4ka", "C3", "C5", CaseInsensitive, Upper)` no pitch
string of the range is a suffix of `C4ka`, yet the function returns `ka` and
reports `C4`, the pitch string it found at the start of the alias. -/
theorem removePitchSuffix_not_suffix :
    getPitchStringRange refInt 5 "C3".toList "C5".toList .Upper
        = some ["C3".toList, "D3".toList, "E3".toList, "F3".toList, "G3".toList, "A3".toList,
            "B3".toList, "C4".toList, "D4".toList, "E4".toList, "F4".toList, "G4".toList,
            "A4".toList, "B4".toList, "C5".toList] ∧
      (∀ x ∈ ["C3".toList, "D3".toList, "E3".toList, "F3".toList, "G3".toList, "A3".toList,
            "B3".toList, "C4".toList, "D4".toList, "E4".toList, "F4".toList, "G4".toList,
            "A4".toList, "B4".toList, "C5".toList],
        ¬ QStr.endsWithUnder Char.toLower .CaseInsensitive "C4ka".toList x) ∧
      removePitchSuffix refInt Char.toLower 5 "C4ka".toList "C3".toList "C5".toList
          .CaseInsensitive .Upper
        = some ("ka".toList, some "C4".toList) := by
  refine ⟨by decide, by decide, by decide⟩

/-! ## The size of the pitch range -/

theorem length_octaveRow (bl tl : Nat) (bo tp o : Int) :
    (octaveRow bl tl bo tp o).length
      = (if o = tp then tl else 6) + 1 - (if o = bo then bl else 0) := by
  simp [octaveRow]

theorem length_rows_after (bl tl : Nat) (bo tp : Int) (n : Nat) :
    ∀ cur : Int, bo < cur → cur + (n : Int) = tp + 1 →
      ((List.range n).flatMap fun k => octaveRow bl tl bo tp (cur + (k : Int))).length
        = if n = 0 then 0 else 7 * (n - 1) + tl + 1 := by
  induction n with
  | zero =>
    intro cur _ _
    rfl
  | succ n ih =>
    intro cur hlo hcur
    rw [List.range_succ_eq_map]
    simp only [List.flatMap_cons, List.flatMap_map, List.length_append, Nat.cast_zero, add_zero,
      Function.comp_def, Nat.cast_succ, length_octaveRow]
    have hk : ∀ k : Nat, cur + ((k : Int) + 1) = cur + 1 + (k : Int) := fun k => by ring
    simp only [hk]
    rw [ih (cur + 1) (by omega) (by push_cast at hcur ⊢; omega)]
    have hne : ¬ cur = bo := by omega
    rw [if_neg hne]
    by_cases hn : n = 0
    · subst hn
      have : cur = tp := by simpa using hcur
      simp [this]
    · have : ¬ cur = tp := by
        intro h
        rw [h] at hcur
        push_cast at hcur
        omega
      rw [if_neg this, if_neg hn, if_neg (by omega)]
      omega

/-- The number of pairs of the range. -/
theorem length_pitchPairs {bl tl : Nat} (hbl : bl < 7) (htl : tl < 7) (bo tp : Int) :
    ((pitchPairs bo bl tp tl).length : Int)
      = max 0 (7 * (tp - bo) + ((tl : Int) - (bl : Int)) + 1) := by
  unfold pitchPairs
  by_cases hle : bo ≤ tp
  · obtain ⟨m, hm⟩ : ∃ m : Nat, (tp + 1 - bo).toNat = m + 1 :=
      ⟨(tp + 1 - bo).toNat - 1, by omega⟩
    rw [hm, List.range_succ_eq_map]
    simp only [List.flatMap_cons, List.flatMap_map, List.length_append, Nat.cast_zero, add_zero,
      Function.comp_def, Nat.cast_succ, length_octaveRow, if_true]
    have hk : ∀ k : Nat, bo + ((k : Int) + 1) = bo + 1 + (k : Int) := fun k => by ring
    simp only [hk]
    rw [length_rows_after bl tl bo tp m (bo + 1) (by omega) (by omega)]
    by_cases hm0 : m = 0
    · have hbt : bo = tp := by omega
      rw [if_pos hbt, if_pos hm0]
      subst hbt
      simp only [sub_self, mul_zero, zero_add, add_zero]
      omega
    · have hbt : ¬ bo = tp := by omega
      rw [if_neg hbt, if_neg hm0]
      have hmt : tp - bo = (m : Int) := by omega
      rw [hmt]
      omega
  · have hn : (tp + 1 - bo).toNat = 0 := by omega
    rw [hn]
    simp only [List.range_zero, List.flatMap_nil, List.length_nil, Nat.cast_zero]
    omega

theorem pitchPairs_same_octave (bl tl : Nat) (bo : Int) :
    pitchPairs bo bl bo tl = (List.range' bl (tl + 1 - bl)).map fun l => (bo, l) := by
  unfold pitchPairs
  have : (bo + 1 - bo).toNat = 1 := by omega
  rw [this, show List.range 1 = [0] from rfl]
  simp [octaveRow]

/-- Below the largest octave the size of the range is as specified: for
well-formed pitch strings with letter indices `bl`, `tl`, octaves `bo` and
`tp < 2147483647`, and fuel above the number of octaves, the result has
`max(0, 7 * (tp - bo) + (tl - bl) + 1)` elements; it is empty exactly when
`(tp, tl)` is below `(bo, bl)` in the order (octave, letter); when both
octaves are equal it is the run of letters `bl..tl` of that octave. -/
theorem getPitchStringRange_length_below_max (q : QtInt) (cs : CharacterCase) (b0 t0 : Char)
    (br tr : QString) (bl tl : Nat)
    (hbl : "cdefgab".toList.get? bl = some b0.toLower)
    (htl : "cdefgab".toList.get? tl = some t0.toLower)
    (hbo : (q.toInt br).2 = true) (htp : (q.toInt tr).2 = true)
    (hmax : (q.toInt tr).1 < 2147483647) (fuel : Nat)
    (hfuel : ((q.toInt tr).1 + 1 - (q.toInt br).1).toNat < fuel) :
    ∃ r, getPitchStringRange q fuel (b0 :: br) (t0 :: tr) cs = some r ∧
      (r.length : Int)
        = max 0 (7 * ((q.toInt tr).1 - (q.toInt br).1) + ((tl : Int) - (bl : Int)) + 1) ∧
      (r = [] ↔ pitchLt ((q.toInt tr).1, tl) ((q.toInt br).1, bl)) ∧
      ((q.toInt br).1 = (q.toInt tr).1 →
        r = (List.range' bl (tl + 1 - bl)).map fun l => renderPitch cs ((q.toInt br).1, l)) := by
  have hbl7 := letter_index_lt hbl
  have htl7 := letter_index_lt htl
  have hr := (getPitchStringRange_below_max q cs b0 t0 br tr bl tl hbl htl hbo htp hmax).1
    fuel hfuel
  have hlen := length_pitchPairs hbl7 htl7 (q.toInt br).1 (q.toInt tr).1
  refine ⟨_, hr, by rw [List.length_map]; exact hlen, ?_, ?_⟩
  · rw [List.map_eq_nil_iff, ← List.length_eq_zero]
    unfold pitchLt
    simp only
    constructor
    · intro h0
      rw [h0] at hlen
      omega
    · intro hlt
      have : ((pitchPairs (q.toInt br).1 bl (q.toInt tr).1 tl).length : Int) = 0 := by
        rw [hlen]
        omega
      omega
  · intro heq
    rw [← heq, pitchPairs_same_octave, List.map_map]
    rfl

/-- The size of the range below the largest octave, evaluated with the
reference routines: `("A4", "B4", Upper)` gives `A4 B4`. -/
theorem getPitchStringRange_length_below_max_witness :
    getPitchStringRange refInt 2 "A4".toList "B4".toList .Upper
      = some ["A4".toList, "B4".toList] := by
  obtain ⟨r, h1, _, _, h4⟩ :=
    getPitchStringRange_length_below_max refInt .Upper 'A' 'B' "4".toList "4".toList 5 6
      (by decide) (by decide) (by decide) (by decide) (by decide) 2 (by decide)
  refine h1.trans ?_
  rw [h4 rfl]
  decide

/-- C17 at the top octave 2147483647: for `("A2147483647", "B2147483647",
Upper)`, where the size formula gives `7 * 0 + (6 - 5) + 1 = 2` elements, the
octave counter wraps round after the first iteration and the loop never
exits: no amount of fuel yields a list, of any length. -/
theorem getPitchStringRange_length_top_max :
    (max 0 (7 * ((2147483647 : Int) - 2147483647) + ((6 : Int) - 5) + 1) = 2) ∧
      ∀ fuel : Nat,
        getPitchStringRange refInt fuel "A2147483647".toList "B2147483647".toList .Upper
          = none := by
  refine ⟨by decide, ?_⟩
  intro fuel
  exact getPitchStringRange_top_max refInt fuel 'A' 'B' "2147483647".toList "2147483647".toList
    .Upper (by unfold malformedPitch; decide) (by unfold malformedPitch; decide) (by decide)

/-- C18 at the top octave 2147483647: for `("C2147483646", "C2147483647",
Lower)`, whose octave parts are 32-bit integers, the increment of the counter
at 2147483647 overflows (modulo 2^32 it gives -2147483648, which again
satisfies `currentOctave <= topOctave`), and the loop does not exit within
any number of iterations. -/
theorem getPitchStringRange_overflow :
    refInt.toInt "2147483646".toList = (2147483646, true) ∧
      refInt.toInt "2147483647".toList = (2147483647, true) ∧
      wrap32 (2147483647 + 1) = -2147483648 ∧
      wrap32 (2147483647 + 1) ≤ 2147483647 ∧
      ∀ fuel : Nat,
        getPitchStringRange refInt fuel "C2147483646".toList "C2147483647".toList .Lower
          = none := by
  refine ⟨by decide, by decide, by decide, by decide, ?_⟩
  intro fuel
  exact getPitchStringRange_top_max refInt fuel 'C' 'C' "2147483646".toList "2147483647".toList
    .Lower (by unfold malformedPitch; decide) (by unfold malformedPitch; decide) (by decide)

end OtoEntryFunctions

end OtoUtil
